import Mathlib

/-!
# The XLA stream pool (`tensorflow/compiler/xla/service/stream_pool.cc`)

A shallow embedding of `StreamPool::BorrowStream` and `StreamPool::ReturnStream`
together with the properties of the pool that follow from the code.

Conventions of the embedding.

* The enumeration `stream_executor::StreamPriority` is declared in a header that
  is not part of the sources, so the priority type is a parameter `Pri` with
  decidable equality.
* A `se::Stream` object is represented by its identity, the executor it was
  constructed with, and the priority installed by `SetPriority`.  The priority
  never changes after construction, and `implementation()->priority()` holds
  the `StreamPriority` alternative that `std::get` reads at line 74.  Object
  identities are allocation numbers: the k-th object constructed has identity k.
* `stream->ok()` is outside the pool.  Every call of an operation receives the
  health of the streams at the time of the call as an oracle `ok`.
* `std::vector` is a `List` whose last element is `back()`.
* `std::unordered_map` is a function into `Option`; `none` is an absent key.
* The mutex `mu_` is not represented: the operations are atomic state
  transformers.
* The heap (`next`, `freed`) and the set of live handles (`borrowed`) are
  carried along with the pool so that construction, destruction and ownership
  can be stated.
-/

namespace xla

variable {Pri : Type}

/-- The part of a `se::Stream` the pool depends on. -/
structure Stream (Pri : Type) where
  /-- Identity of the object (allocation number). -/
  id : Nat
  /-- The `se::StreamExecutor*` given to the constructor. -/
  executor : Nat
  /-- What `implementation()->priority()` yields. -/
  priority : Pri
deriving DecidableEq

/-- The data member of `StreamPool`. -/
structure StreamPool (Pri : Type) where
  /-- The member `streams_with_pri_`: per priority, the vector of idle streams. -/
  streams_with_pri_ : Pri → Option (List (Stream Pri))

/-- The pool together with the heap of stream objects and the outstanding
handles. -/
structure World (Pri : Type) where
  /-- The pool object. -/
  pool : StreamPool Pri
  /-- Number of `se::Stream` objects constructed so far. -/
  next : Nat
  /-- The objects destroyed so far, oldest first. -/
  freed : List (Stream Pri)
  /-- The streams wrapped by a live `StreamPool::Ptr`, oldest first. -/
  borrowed : List (Stream Pri)

/-- The idle list for a priority, empty when the map has no entry for it. -/
def World.idle (w : World Pri) (p : Pri) : List (Stream Pri) :=
  (w.pool.streams_with_pri_ p).getD []

/-- The pool right after construction: no map entry, no stream. -/
def World.empty : World Pri :=
  { pool := { streams_with_pri_ := fun _ => none }, next := 0, freed := [], borrowed := [] }

/-- The variables the reuse loop (lines 34-48) works on, with counters for the
`pop_back` and `ok()` calls executed. -/
structure ScanState (Pri : Type) where
  /-- The vector `streams_with_pri_[priority]`. -/
  vec : List (Stream Pri)
  /-- The local `std::unique_ptr<se::Stream> stream`. -/
  stream : Option (Stream Pri)
  /-- Objects destroyed by `stream = nullptr`, in the order of destruction. -/
  deleted : List (Stream Pri)
  /-- Number of `pop_back()` calls. -/
  pops : Nat
  /-- Number of `ok()` calls. -/
  checks : Nat

/-- The loop condition `!streams_with_pri_[priority].empty() && !stream`. -/
def scanCond (st : ScanState Pri) : Bool :=
  !st.vec.isEmpty && st.stream.isNone

/-- One execution of the loop body, lines 36-47. -/
def scanBody (ok : Stream Pri → Bool) (st : ScanState Pri) : ScanState Pri :=
  match st.vec.getLast? with
  | none => st
  | some s =>
    if ok s then
      { vec := st.vec.dropLast, stream := some s, deleted := st.deleted,
        pops := st.pops + 1, checks := st.checks + 1 }
    else
      { vec := st.vec.dropLast, stream := none, deleted := st.deleted ++ [s],
        pops := st.pops + 1, checks := st.checks + 1 }

/-- The `while` loop of lines 34-48, iterated at most `fuel` times. -/
def scanLoop (ok : Stream Pri → Bool) : Nat → ScanState Pri → ScanState Pri
  | 0, st => st
  | fuel + 1, st => if scanCond st then scanLoop ok fuel (scanBody ok st) else st

/-- The block under the lock, lines 29-50.  Each iteration pops one element, so
the length of the vector is enough fuel (`scan_exits`, `scanLoop_enough_fuel`). -/
def scan (ok : Stream Pri → Bool) (entry : Option (List (Stream Pri))) : ScanState Pri :=
  match entry with
  | none => { vec := [], stream := none, deleted := [], pops := 0, checks := 0 }
  | some l => scanLoop ok l.length { vec := l, stream := none, deleted := [], pops := 0, checks := 0 }

variable [DecidableEq Pri]

/-- What a call of `BorrowStream` does. -/
structure Borrow (Pri : Type) where
  /-- The stream wrapped by the returned `Ptr`. -/
  stream : Stream Pri
  /-- Whether lines 52-62 ran (a new stream was constructed). -/
  created : Bool
  /-- The streams destroyed during the call, in the order of destruction. -/
  deleted : List (Stream Pri)
  /-- Number of `pop_back()` calls. -/
  pops : Nat
  /-- Number of `ok()` calls. -/
  checks : Nat
  /-- The state after the call. -/
  world : World Pri

/-- The map after the locked block: an existing entry holds what the loop left,
an absent entry stays absent (line 31 uses `find`, which inserts nothing). -/
def afterScan (m : Pri → Option (List (Stream Pri))) (priority : Pri)
    (st : ScanState Pri) : Pri → Option (List (Stream Pri)) :=
  match m priority with
  | none => m
  | some _ => fun q => if q = priority then some st.vec else m q

/-- The function `StreamPool::BorrowStream`, lines 25-67. -/
def BorrowStream (ok : Stream Pri → Bool) (executor : Nat) (priority : Pri)
    (w : World Pri) : Borrow Pri :=
  let st := scan ok (w.pool.streams_with_pri_ priority)
  let pool : StreamPool Pri :=
    { streams_with_pri_ := afterScan w.pool.streams_with_pri_ priority st }
  match st.stream with
  | some s =>
    { stream := s, created := false, deleted := st.deleted, pops := st.pops,
      checks := st.checks,
      world := { pool := pool, next := w.next, freed := w.freed ++ st.deleted,
                 borrowed := w.borrowed ++ [s] } }
  | none =>
    let s : Stream Pri := { id := w.next, executor := executor, priority := priority }
    { stream := s, created := true, deleted := st.deleted, pops := st.pops,
      checks := st.checks,
      world := { pool := pool, next := w.next + 1, freed := w.freed ++ st.deleted,
                 borrowed := w.borrowed ++ [s] } }

/-- The function `StreamPool::ReturnStream`, lines 69-85.  `operator[]` inserts an empty
vector for an absent key before `emplace_back`. -/
def ReturnStream (ok : Stream Pri → Bool) (stream : Stream Pri) (w : World Pri) : World Pri :=
  if ok stream then
    { pool := { streams_with_pri_ := fun q =>
                  if q = stream.priority then
                    some ((w.pool.streams_with_pri_ q).getD [] ++ [stream])
                  else w.pool.streams_with_pri_ q },
      next := w.next, freed := w.freed, borrowed := w.borrowed.erase stream }
  else
    { pool := w.pool, next := w.next, freed := w.freed ++ [stream],
      borrowed := w.borrowed.erase stream }

/-- A call of one of the two operations, with the health of the streams at the
time of the call. -/
inductive Call (Pri : Type) where
  /-- A call `BorrowStream(executor, priority)`. -/
  | borrow (ok : Stream Pri → Bool) (executor : Nat) (priority : Pri)
  /-- A call `ReturnStream(stream)`, made by the deleter of a dying `Ptr`. -/
  | giveBack (ok : Stream Pri → Bool) (stream : Stream Pri)

/-- The state after a call. -/
def step (w : World Pri) : Call Pri → World Pri
  | .borrow ok e p => (BorrowStream ok e p w).world
  | .giveBack ok s => ReturnStream ok s w

/-- The state after a sequence of calls. -/
def run (w : World Pri) : List (Call Pri) → World Pri
  | [] => w
  | c :: cs => run (step w c) cs

/-- The streams the `BorrowStream` calls of a sequence hand out, in order. -/
def handedOut (w : World Pri) : List (Call Pri) → List (Stream Pri)
  | [] => []
  | .borrow ok e p :: cs =>
    (BorrowStream ok e p w).stream :: handedOut (BorrowStream ok e p w).world cs
  | .giveBack ok s :: cs => handedOut (ReturnStream ok s w) cs

/-- Every `ReturnStream` call of the sequence is made on a stream that is
borrowed at that time: `ReturnStream` is reached through the deleter of a
`Ptr` only. -/
def wellUsed (w : World Pri) : List (Call Pri) → Bool
  | [] => true
  | .borrow ok e p :: cs => wellUsed (BorrowStream ok e p w).world cs
  | .giveBack ok s :: cs => decide (s ∈ w.borrowed) && wellUsed (ReturnStream ok s w) cs

/-- Every `BorrowStream` call of the sequence asks for priority `p`. -/
def atPriority (p : Pri) : List (Call Pri) → Bool
  | [] => true
  | .borrow _ _ q :: cs => decide (q = p) && atPriority p cs
  | .giveBack _ _ :: cs => atPriority p cs

/-- The identities of the live streams: constructed and not destroyed. -/
def World.live (w : World Pri) : List Nat :=
  (List.range w.next).filter fun i => w.freed.all fun s => s.id != i

/-- The state after `n` cycles of `BorrowStream(executor, priority)` followed by
`ReturnStream` of the stream handed out; `oks k` is the health of the streams
during cycle `k`. -/
def cycles (oks : Nat → Stream Pri → Bool) (executor : Nat) (priority : Pri)
    (w : World Pri) : Nat → World Pri
  | 0 => w
  | n + 1 =>
    ReturnStream (oks n)
      (BorrowStream (oks n) executor priority (cycles oks executor priority w n)).stream
      (BorrowStream (oks n) executor priority (cycles oks executor priority w n)).world

/-- The streams handed out in the first `n` cycles, in order. -/
def cycleStreams (oks : Nat → Stream Pri → Bool) (executor : Nat) (priority : Pri)
    (w : World Pri) : Nat → List (Stream Pri)
  | 0 => []
  | n + 1 =>
    cycleStreams oks executor priority w n ++
      [(BorrowStream (oks n) executor priority (cycles oks executor priority w n)).stream]

/-- The state mentions the stream: as borrowed, as destroyed, or as idle. -/
def World.knows (w : World Pri) (s : Stream Pri) : Prop :=
  s ∈ w.borrowed ∨ s ∈ w.freed ∨ ∃ p, s ∈ w.idle p

/-- The ownership discipline of a state. -/
structure Owned (w : World Pri) : Prop where
  /-- No stream occurs twice in one idle list. -/
  idle_nodup : ∀ p, (w.idle p).Nodup
  /-- A stream in the idle list for `p` has priority `p`. -/
  idle_priority : ∀ p s, s ∈ w.idle p → s.priority = p
  /-- No stream is wrapped by two handles. -/
  borrowed_nodup : w.borrowed.Nodup
  /-- No idle stream is borrowed. -/
  idle_not_borrowed : ∀ p s, s ∈ w.idle p → s ∉ w.borrowed
  /-- No destroyed stream is idle. -/
  freed_not_idle : ∀ p s, s ∈ w.freed → s ∉ w.idle p
  /-- No destroyed stream is borrowed. -/
  freed_not_borrowed : ∀ s, s ∈ w.freed → s ∉ w.borrowed
  /-- Every stream the state mentions has been constructed. -/
  constructed : ∀ s, w.knows s → s.id < w.next
  /-- Streams the state mentions are equal when their identities are. -/
  id_inj : ∀ s t, w.knows s → w.knows t → s.id = t.id → s = t

/-- The unhealthy streams at the tail of a vector, tail first: what a scan pops
before it meets a healthy stream. -/
def trailingBad (ok : Stream Pri → Bool) (l : List (Stream Pri)) : List (Stream Pri) :=
  l.reverse.takeWhile fun s => !ok s

/-- The vector without the unhealthy streams at its tail. -/
def withoutTrailingBad (ok : Stream Pri → Bool) (l : List (Stream Pri)) : List (Stream Pri) :=
  (l.reverse.dropWhile fun s => !ok s).reverse

/-- A concrete state used to instantiate the theorems: priority 0 has the idle
streams 0 and 1, stream 2 is borrowed, three streams were constructed. -/
def demoWorld : World Nat :=
  { pool := { streams_with_pri_ := fun q =>
                if q = 0 then some [{ id := 0, executor := 7, priority := 0 },
                                    { id := 1, executor := 7, priority := 0 }]
                else none },
    next := 3, freed := [],
    borrowed := [{ id := 2, executor := 7, priority := 0 }] }

/-- A concrete sequence of calls at priority 0: streams 0 and 1 are borrowed
and returned healthy, and stream 0 has failed in the idle list by the time
stream 1 is returned. -/
def demoCalls : List (Call Nat) :=
  [ Call.borrow (fun _ => true) 7 0,
    Call.borrow (fun _ => true) 7 0,
    Call.giveBack (fun _ => true) { id := 0, executor := 7, priority := 0 },
    Call.giveBack (fun t => t.id != 0) { id := 1, executor := 7, priority := 0 } ]

end xla

namespace xla

variable {Pri : Type}

/-! ## The reuse loop -/

theorem scanLoop_of_cond_false (ok : Stream Pri → Bool) (n : Nat) (st : ScanState Pri)
    (h : scanCond st = false) : scanLoop ok n st = st := by
  cases n with
  | zero => rfl
  | succ n => simp [scanLoop, h]

theorem scanLoop_snoc_bad (ok : Stream Pri → Bool) (n : Nat) (l d : List (Stream Pri))
    (s : Stream Pri) (p c : Nat) (h : ok s = false) :
    scanLoop ok (n + 1) { vec := l ++ [s], stream := none, deleted := d, pops := p, checks := c }
      = scanLoop ok n { vec := l, stream := none, deleted := d ++ [s], pops := p + 1,
                        checks := c + 1 } := by
  simp [scanLoop, scanCond, scanBody, h]

theorem scanLoop_snoc_good (ok : Stream Pri → Bool) (n : Nat) (l d : List (Stream Pri))
    (s : Stream Pri) (p c : Nat) (h : ok s = true) :
    scanLoop ok (n + 1) { vec := l ++ [s], stream := none, deleted := d, pops := p, checks := c }
      = { vec := l, stream := some s, deleted := d, pops := p + 1, checks := c + 1 } := by
  have e : scanLoop ok (n + 1)
      { vec := l ++ [s], stream := none, deleted := d, pops := p, checks := c }
      = scanLoop ok n { vec := l, stream := some s, deleted := d, pops := p + 1,
                        checks := c + 1 } := by
    simp [scanLoop, scanCond, scanBody, h]
  rw [e]
  exact scanLoop_of_cond_false ok n _ (by simp [scanCond])

/-- A vector of unhealthy streams is emptied, every stream destroyed, tail first. -/
theorem scanLoop_all_bad (ok : Stream Pri → Bool) (l : List (Stream Pri)) :
    ∀ (n : Nat) (d : List (Stream Pri)) (p c : Nat), (∀ s ∈ l, ok s = false) → l.length ≤ n →
      scanLoop ok n { vec := l, stream := none, deleted := d, pops := p, checks := c }
        = { vec := [], stream := none, deleted := d ++ l.reverse, pops := p + l.length,
            checks := c + l.length } := by
  induction l using List.reverseRecOn with
  | nil =>
    intro n d p c _ _
    simpa using scanLoop_of_cond_false ok n
      ({ vec := [], stream := none, deleted := d, pops := p, checks := c } : ScanState Pri)
      (by simp [scanCond])
  | append_singleton l s ih =>
    intro n d p c hbad hlen
    have hs : ok s = false := hbad s (by simp)
    have hl : ∀ t ∈ l, ok t = false := fun t ht => hbad t (by simp [ht])
    obtain ⟨m, rfl⟩ : ∃ m, n = m + 1 := ⟨n - 1, by simp at hlen; omega⟩
    rw [scanLoop_snoc_bad ok m l d s p c hs, ih m (d ++ [s]) (p + 1) (c + 1) hl
      (by simp at hlen; omega)]
    simp [Nat.add_assoc, Nat.add_comm 1]

/-- The loop stops at the last healthy stream: what lies after it is destroyed,
what lies before it is left in the vector. -/
theorem scanLoop_found (ok : Stream Pri → Bool) (pre : List (Stream Pri)) (h : Stream Pri)
    (hh : ok h = true) (suf : List (Stream Pri)) :
    ∀ (n : Nat) (d : List (Stream Pri)) (p c : Nat), (∀ s ∈ suf, ok s = false) →
      suf.length + 1 ≤ n →
      scanLoop ok n { vec := pre ++ h :: suf, stream := none, deleted := d, pops := p,
                      checks := c }
        = { vec := pre, stream := some h, deleted := d ++ suf.reverse,
            pops := p + suf.length + 1, checks := c + suf.length + 1 } := by
  induction suf using List.reverseRecOn with
  | nil =>
    intro n d p c _ hlen
    obtain ⟨m, rfl⟩ : ∃ m, n = m + 1 := ⟨n - 1, by simp at hlen; omega⟩
    simpa using scanLoop_snoc_good ok m pre d h p c hh
  | append_singleton suf s ih =>
    intro n d p c hbad hlen
    have hs : ok s = false := hbad s (by simp)
    have hl : ∀ t ∈ suf, ok t = false := fun t ht => hbad t (by simp [ht])
    obtain ⟨m, rfl⟩ : ∃ m, n = m + 1 := ⟨n - 1, by simp at hlen; omega⟩
    have e : pre ++ h :: (suf ++ [s]) = (pre ++ h :: suf) ++ [s] := by simp
    rw [e, scanLoop_snoc_bad ok m (pre ++ h :: suf) d s p c hs,
      ih m (d ++ [s]) (p + 1) (c + 1) hl (by simp at hlen; omega)]
    simp [Nat.add_assoc, Nat.add_comm 1]

/-- Every vector either holds no healthy stream or splits at its last healthy
stream. -/
theorem split_last_healthy (ok : Stream Pri → Bool) (l : List (Stream Pri)) :
    (∀ s ∈ l, ok s = false) ∨
      ∃ pre h suf, l = pre ++ h :: suf ∧ ok h = true ∧ ∀ s ∈ suf, ok s = false := by
  induction l using List.reverseRecOn with
  | nil => left; simp
  | append_singleton l s ih =>
    by_cases hs : ok s = true
    · right; exact ⟨l, s, [], by simp, hs, by simp⟩
    · have hs' : ok s = false := by simpa using hs
      rcases ih with hall | ⟨pre, h, suf, rfl, hh, hsuf⟩
      · left
        intro t ht
        rcases List.mem_append.1 ht with ht | ht
        · exact hall t ht
        · simp at ht; subst ht; exact hs'
      · right
        refine ⟨pre, h, suf ++ [s], by simp, hh, ?_⟩
        intro t ht
        rcases List.mem_append.1 ht with ht | ht
        · exact hsuf t ht
        · simp at ht; subst ht; exact hs'

/-! ## Closed forms of `BorrowStream` and `ReturnStream` -/

theorem scan_all_bad (ok : Stream Pri → Bool) (l : List (Stream Pri))
    (hbad : ∀ s ∈ l, ok s = false) :
    scan ok (some l) = { vec := [], stream := none, deleted := l.reverse, pops := l.length,
                         checks := l.length } := by
  simpa [scan] using scanLoop_all_bad ok l l.length [] 0 0 hbad (le_refl _)

theorem scan_found (ok : Stream Pri → Bool) (pre : List (Stream Pri)) (h : Stream Pri)
    (suf : List (Stream Pri)) (hh : ok h = true) (hbad : ∀ s ∈ suf, ok s = false) :
    scan ok (some (pre ++ h :: suf))
      = { vec := pre, stream := some h, deleted := suf.reverse, pops := suf.length + 1,
          checks := suf.length + 1 } := by
  simpa [scan] using scanLoop_found ok pre h hh suf (pre ++ h :: suf).length [] 0 0 hbad
    (by simp)

/-- The loop has come to its end when `scan` returns: its condition is false. -/
theorem scan_exits (ok : Stream Pri → Bool) (entry : Option (List (Stream Pri))) :
    scanCond (scan ok entry) = false := by
  cases entry with
  | none => simp [scan, scanCond]
  | some l =>
    rcases split_last_healthy ok l with hbad | ⟨pre, h, suf, rfl, hh, hbad⟩
    · rw [scan_all_bad ok l hbad]; simp [scanCond]
    · rw [scan_found ok pre h suf hh hbad]; simp [scanCond]

/-- More fuel than the length of the vector changes nothing. -/
theorem scanLoop_enough_fuel (ok : Stream Pri → Bool) (l : List (Stream Pri)) (n : Nat)
    (hn : l.length ≤ n) :
    scanLoop ok n { vec := l, stream := none, deleted := [], pops := 0, checks := 0 }
      = scan ok (some l) := by
  rcases split_last_healthy ok l with hbad | ⟨pre, h, suf, rfl, hh, hbad⟩
  · rw [scan_all_bad ok l hbad, scanLoop_all_bad ok l n [] 0 0 hbad hn]
    simp
  · rw [scan_found ok pre h suf hh hbad,
      scanLoop_found ok pre h hh suf n [] 0 0 hbad (by simp at hn; omega)]
    simp

/-- The tail of a vector that splits at its last healthy stream. -/
theorem trailingBad_found (ok : Stream Pri → Bool) (pre : List (Stream Pri)) (h : Stream Pri)
    (suf : List (Stream Pri)) (hh : ok h = true) (hbad : ∀ s ∈ suf, ok s = false) :
    trailingBad ok (pre ++ h :: suf) = suf.reverse ∧
    withoutTrailingBad ok (pre ++ h :: suf) = pre ++ [h] := by
  have hall : ∀ a ∈ suf.reverse, (fun s => !ok s) a = true := by
    intro a ha; simp [hbad a (by simpa using ha)]
  have hrev : (pre ++ h :: suf).reverse = suf.reverse ++ h :: pre.reverse := by simp
  constructor
  · simp only [trailingBad]
    rw [hrev, List.takeWhile_append_of_pos hall, List.takeWhile_cons_of_neg (by simp [hh])]
    simp
  · simp only [withoutTrailingBad]
    rw [hrev, List.dropWhile_append_of_pos hall, List.dropWhile_cons_of_neg (by simp [hh])]
    simp

/-- The tail of a vector without a healthy stream is the whole vector. -/
theorem trailingBad_all_bad (ok : Stream Pri → Bool) (l : List (Stream Pri))
    (hbad : ∀ s ∈ l, ok s = false) :
    trailingBad ok l = l.reverse ∧ withoutTrailingBad ok l = [] ∧ l.any ok = false := by
  have hall : ∀ a ∈ l.reverse, (fun s => !ok s) a = true := by
    intro a ha; simp [hbad a (by simpa using ha)]
  refine ⟨?_, ?_, ?_⟩
  · simp only [trailingBad]
    exact List.takeWhile_eq_self_iff.2 hall
  · simp only [withoutTrailingBad]
    rw [List.dropWhile_eq_nil_iff.2 hall]
    rfl
  · simpa using hbad

/-- The empty pool satisfies the ownership discipline. -/
theorem Owned_empty : Owned (World.empty : World Pri) where
  idle_nodup := by intro p; simp [World.idle, World.empty]
  idle_priority := by intro p s hs; simp [World.idle, World.empty] at hs
  borrowed_nodup := by simp [World.empty]
  idle_not_borrowed := by intro p s hs; simp [World.idle, World.empty] at hs
  freed_not_idle := by intro p s hs; simp [World.empty] at hs
  freed_not_borrowed := by intro s hs; simp [World.empty] at hs
  constructed := by intro s hs; simp [World.knows, World.idle, World.empty] at hs
  id_inj := by intro s t hs; simp [World.knows, World.idle, World.empty] at hs

variable [DecidableEq Pri]

/-- No entry for the priority: a stream is constructed, nothing else changes. -/
theorem BorrowStream_absent (ok : Stream Pri → Bool) (e : Nat) (P : Pri) (w : World Pri)
    (hm : w.pool.streams_with_pri_ P = none) :
    BorrowStream ok e P w
      = { stream := { id := w.next, executor := e, priority := P }, created := true,
          deleted := [], pops := 0, checks := 0,
          world := { pool := w.pool, next := w.next + 1, freed := w.freed,
                     borrowed := w.borrowed ++ [{ id := w.next, executor := e, priority := P }] } } := by
  simp [BorrowStream, scan, afterScan, hm]

/-- An entry without a healthy stream: the vector is emptied, its streams are
destroyed tail first, and a stream is constructed. -/
theorem BorrowStream_all_bad (ok : Stream Pri → Bool) (e : Nat) (P : Pri) (w : World Pri)
    (l : List (Stream Pri)) (hm : w.pool.streams_with_pri_ P = some l)
    (hbad : ∀ s ∈ l, ok s = false) :
    BorrowStream ok e P w
      = { stream := { id := w.next, executor := e, priority := P }, created := true,
          deleted := l.reverse, pops := l.length, checks := l.length,
          world := { pool := { streams_with_pri_ := fun q =>
                                 if q = P then some [] else w.pool.streams_with_pri_ q },
                     next := w.next + 1, freed := w.freed ++ l.reverse,
                     borrowed := w.borrowed ++ [{ id := w.next, executor := e, priority := P }] } } := by
  simp [BorrowStream, afterScan, hm, scan_all_bad ok l hbad]

/-- An entry whose last healthy stream is `h`: `h` is handed out, the streams
after it are destroyed tail first, the streams before it stay. -/
theorem BorrowStream_found (ok : Stream Pri → Bool) (e : Nat) (P : Pri) (w : World Pri)
    (pre : List (Stream Pri)) (h : Stream Pri) (suf : List (Stream Pri))
    (hm : w.pool.streams_with_pri_ P = some (pre ++ h :: suf)) (hh : ok h = true)
    (hbad : ∀ s ∈ suf, ok s = false) :
    BorrowStream ok e P w
      = { stream := h, created := false,
          deleted := suf.reverse, pops := suf.length + 1, checks := suf.length + 1,
          world := { pool := { streams_with_pri_ := fun q =>
                                 if q = P then some pre else w.pool.streams_with_pri_ q },
                     next := w.next, freed := w.freed ++ suf.reverse,
                     borrowed := w.borrowed ++ [h] } } := by
  simp [BorrowStream, afterScan, hm, scan_found ok pre h suf hh hbad]

theorem ReturnStream_ok (ok : Stream Pri → Bool) (s : Stream Pri) (w : World Pri)
    (h : ok s = true) :
    ReturnStream ok s w
      = { pool := { streams_with_pri_ := fun q =>
                      if q = s.priority then some (w.idle q ++ [s])
                      else w.pool.streams_with_pri_ q },
          next := w.next, freed := w.freed, borrowed := w.borrowed.erase s } := by
  simp [ReturnStream, h, World.idle]

theorem ReturnStream_bad (ok : Stream Pri → Bool) (s : Stream Pri) (w : World Pri)
    (h : ok s = false) :
    ReturnStream ok s w
      = { pool := w.pool, next := w.next, freed := w.freed ++ [s],
          borrowed := w.borrowed.erase s } := by
  simp [ReturnStream, h]

/-- The three ways a call of `BorrowStream` can go. -/
theorem BorrowStream_cases (ok : Stream Pri → Bool) (e : Nat) (P : Pri) (w : World Pri) :
    (w.pool.streams_with_pri_ P = none ∧
      BorrowStream ok e P w
        = { stream := { id := w.next, executor := e, priority := P }, created := true,
            deleted := [], pops := 0, checks := 0,
            world := { pool := w.pool, next := w.next + 1, freed := w.freed,
                       borrowed := w.borrowed ++ [{ id := w.next, executor := e, priority := P }] } })
    ∨ (∃ l, w.pool.streams_with_pri_ P = some l ∧ (∀ s ∈ l, ok s = false) ∧
      BorrowStream ok e P w
        = { stream := { id := w.next, executor := e, priority := P }, created := true,
            deleted := l.reverse, pops := l.length, checks := l.length,
            world := { pool := { streams_with_pri_ := fun q =>
                                   if q = P then some [] else w.pool.streams_with_pri_ q },
                       next := w.next + 1, freed := w.freed ++ l.reverse,
                       borrowed := w.borrowed ++ [{ id := w.next, executor := e, priority := P }] } })
    ∨ (∃ pre h suf, w.pool.streams_with_pri_ P = some (pre ++ h :: suf) ∧ ok h = true ∧
      (∀ s ∈ suf, ok s = false) ∧
      BorrowStream ok e P w
        = { stream := h, created := false,
            deleted := suf.reverse, pops := suf.length + 1, checks := suf.length + 1,
            world := { pool := { streams_with_pri_ := fun q =>
                                   if q = P then some pre else w.pool.streams_with_pri_ q },
                       next := w.next, freed := w.freed ++ suf.reverse,
                       borrowed := w.borrowed ++ [h] } }) := by
  cases hm : w.pool.streams_with_pri_ P with
  | none => exact Or.inl ⟨rfl, BorrowStream_absent ok e P w hm⟩
  | some l =>
    rcases split_last_healthy ok l with hbad | ⟨pre, h, suf, rfl, hh, hbad⟩
    · exact Or.inr (Or.inl ⟨l, rfl, hbad, BorrowStream_all_bad ok e P w l hm hbad⟩)
    · exact Or.inr (Or.inr ⟨pre, h, suf, rfl, hh, hbad,
        BorrowStream_found ok e P w pre h suf hm hh hbad⟩)

/-- The effect of `BorrowStream` on the idle lists, the heap and the handles:
either the whole idle list for `P` is destroyed and a stream is constructed, or
the list splits at its last healthy stream, which is handed out. -/
theorem BorrowStream_effect (ok : Stream Pri → Bool) (e : Nat) (P : Pri) (w : World Pri) :
    ((∀ s ∈ w.idle P, ok s = false) ∧
      (BorrowStream ok e P w).stream = { id := w.next, executor := e, priority := P } ∧
      (BorrowStream ok e P w).created = true ∧
      (BorrowStream ok e P w).world.next = w.next + 1 ∧
      (BorrowStream ok e P w).world.freed = w.freed ++ (w.idle P).reverse ∧
      (BorrowStream ok e P w).world.borrowed
        = w.borrowed ++ [{ id := w.next, executor := e, priority := P }] ∧
      ∀ Q, (BorrowStream ok e P w).world.idle Q = if Q = P then [] else w.idle Q)
    ∨ (∃ pre h suf, w.idle P = pre ++ h :: suf ∧ ok h = true ∧ (∀ s ∈ suf, ok s = false) ∧
      (BorrowStream ok e P w).stream = h ∧
      (BorrowStream ok e P w).created = false ∧
      (BorrowStream ok e P w).world.next = w.next ∧
      (BorrowStream ok e P w).world.freed = w.freed ++ suf.reverse ∧
      (BorrowStream ok e P w).world.borrowed = w.borrowed ++ [h] ∧
      ∀ Q, (BorrowStream ok e P w).world.idle Q = if Q = P then pre else w.idle Q) := by
  rcases BorrowStream_cases ok e P w with ⟨hm, hb⟩ | ⟨l, hm, hbad, hb⟩ |
    ⟨pre, h, suf, hm, hh, hbad, hb⟩
  · left
    rw [hb]
    have hi : w.idle P = [] := by simp [World.idle, hm]
    refine ⟨by simp [hi], rfl, rfl, rfl, by simp [hi], rfl, ?_⟩
    intro Q
    by_cases hQ : Q = P
    · subst hQ; simpa [World.idle] using hi
    · simp [World.idle, hQ]
  · left
    rw [hb]
    have hi : w.idle P = l := by simp [World.idle, hm]
    refine ⟨by simpa [hi] using hbad, rfl, rfl, rfl, by simp [hi], rfl, ?_⟩
    intro Q
    by_cases hQ : Q = P <;> simp [World.idle, hQ]
  · right
    rw [hb]
    have hi : w.idle P = pre ++ h :: suf := by simp [World.idle, hm]
    refine ⟨pre, h, suf, hi, hh, hbad, rfl, rfl, rfl, rfl, rfl, ?_⟩
    intro Q
    by_cases hQ : Q = P <;> simp [World.idle, hQ]

/-- The effect of `ReturnStream` of a healthy stream. -/
theorem ReturnStream_effect_ok (ok : Stream Pri → Bool) (s : Stream Pri) (w : World Pri)
    (h : ok s = true) :
    (ReturnStream ok s w).next = w.next ∧ (ReturnStream ok s w).freed = w.freed ∧
    (ReturnStream ok s w).borrowed = w.borrowed.erase s ∧
    ∀ Q, (ReturnStream ok s w).idle Q = if Q = s.priority then w.idle Q ++ [s] else w.idle Q := by
  rw [ReturnStream_ok ok s w h]
  refine ⟨rfl, rfl, rfl, ?_⟩
  intro Q
  by_cases hQ : Q = s.priority <;> simp [World.idle, hQ]

/-- The effect of `ReturnStream` of an unhealthy stream. -/
theorem ReturnStream_effect_bad (ok : Stream Pri → Bool) (s : Stream Pri) (w : World Pri)
    (h : ok s = false) :
    (ReturnStream ok s w).next = w.next ∧ (ReturnStream ok s w).freed = w.freed ++ [s] ∧
    (ReturnStream ok s w).borrowed = w.borrowed.erase s ∧
    ∀ Q, (ReturnStream ok s w).idle Q = w.idle Q := by
  rw [ReturnStream_bad ok s w h]
  exact ⟨rfl, rfl, rfl, fun _ => rfl⟩

/-! ## Single calls -/

/-- C1. Most-recently-returned-first reuse: when a stream `s` of priority `P` is
healthy at `ReturnStream(s)` and still healthy at the `BorrowStream(executor, P)`
that follows immediately, that call hands out `s` itself, constructs no stream,
neither call destroys a stream, and the idle list for `P` is again the sequence
it was before the return (as are the idle lists of all priorities). -/
theorem return_then_borrow_reuses (okR okB : Stream Pri → Bool) (e : Nat) (P : Pri)
    (s : Stream Pri) (w : World Pri) (hR : okR s = true) (hB : okB s = true)
    (hP : s.priority = P) :
    (BorrowStream okB e P (ReturnStream okR s w)).stream = s ∧
    (BorrowStream okB e P (ReturnStream okR s w)).created = false ∧
    (BorrowStream okB e P (ReturnStream okR s w)).world.next = w.next ∧
    (BorrowStream okB e P (ReturnStream okR s w)).deleted = [] ∧
    (BorrowStream okB e P (ReturnStream okR s w)).world.freed = w.freed ∧
    (BorrowStream okB e P (ReturnStream okR s w)).world.pool.streams_with_pri_ P
      = some (w.idle P) ∧
    ∀ Q, (BorrowStream okB e P (ReturnStream okR s w)).world.idle Q = w.idle Q := by
  subst hP
  have hm : (ReturnStream okR s w).pool.streams_with_pri_ s.priority
      = some (w.idle s.priority ++ s :: []) := by
    simp [ReturnStream_ok okR s w hR]
  have hb := BorrowStream_found okB e s.priority (ReturnStream okR s w) (w.idle s.priority) s []
    hm hB (by simp)
  rw [hb]
  refine ⟨rfl, rfl, ?_, rfl, ?_, by simp, ?_⟩
  · simp [ReturnStream_ok okR s w hR]
  · simp [ReturnStream_ok okR s w hR]
  · intro Q
    by_cases hQ : Q = s.priority
    · simp [World.idle, hQ]
    · simp [World.idle, hQ, ReturnStream_ok okR s w hR]

/-- Instance of C1: stream 2 is returned to `demoWorld` while stream 1 has failed
in the idle list; the next borrow hands out stream 2 and leaves the list as it
was, with the failed stream 1 still in it. -/
theorem return_then_borrow_reuses_witness :
    (fun t : Stream Nat => t.id != 1) { id := 2, executor := 7, priority := 0 } = true ∧
    (BorrowStream (fun t => t.id != 1) 9 0
      (ReturnStream (fun t => t.id != 1) { id := 2, executor := 7, priority := 0 }
        demoWorld)).stream = { id := 2, executor := 7, priority := 0 } ∧
    (BorrowStream (fun t => t.id != 1) 9 0
      (ReturnStream (fun t => t.id != 1) { id := 2, executor := 7, priority := 0 }
        demoWorld)).world.pool.streams_with_pri_ 0 = some (demoWorld.idle 0) :=
  have h := return_then_borrow_reuses (fun t : Stream Nat => t.id != 1) (fun t => t.id != 1)
    9 0 { id := 2, executor := 7, priority := 0 } demoWorld rfl rfl rfl
  ⟨rfl, h.1, h.2.2.2.2.2.1⟩

/-- C2. The stream `BorrowStream` hands out is healthy at hand-off: either it was
popped from the idle list for `P` and its `ok()` check was true (and it is none of
the streams destroyed by the scan), or it is the stream the call has just
constructed for the given executor and priority.  Every stream whose check
in the scan was false came from that idle list and is destroyed, never handed
out; the checks made are those of the destroyed streams and, on reuse, the one
of the stream handed out. -/
theorem borrow_hands_out_healthy (ok : Stream Pri → Bool) (e : Nat) (P : Pri)
    (w : World Pri) :
    (((BorrowStream ok e P w).created = false ∧
        (BorrowStream ok e P w).stream ∈ w.idle P ∧
        ok (BorrowStream ok e P w).stream = true ∧
        (BorrowStream ok e P w).stream ∉ (BorrowStream ok e P w).deleted) ∨
      ((BorrowStream ok e P w).created = true ∧
        (BorrowStream ok e P w).stream = { id := w.next, executor := e, priority := P })) ∧
    (∀ s ∈ (BorrowStream ok e P w).deleted, ok s = false ∧ s ∈ w.idle P) ∧
    (BorrowStream ok e P w).checks
      = (BorrowStream ok e P w).deleted.length +
          (if (BorrowStream ok e P w).created = true then 0 else 1) ∧
    ((∀ s ∈ w.idle P, s.id < w.next) →
      (BorrowStream ok e P w).stream ∉ (BorrowStream ok e P w).deleted) := by
  rcases BorrowStream_cases ok e P w with ⟨hm, hb⟩ | ⟨l, hm, hbad, hb⟩ |
    ⟨pre, h, suf, hm, hh, hbad, hb⟩
  · rw [hb]; simp
  · rw [hb]
    refine ⟨Or.inr ⟨rfl, rfl⟩, ?_, by simp, ?_⟩
    · intro s hs
      have hs' : s ∈ l := by simpa using hs
      exact ⟨hbad s hs', by simp [World.idle, hm, hs']⟩
    · intro hid hmem
      have hmem' : ({ id := w.next, executor := e, priority := P } : Stream Pri) ∈ l := by
        simpa using hmem
      have := hid _ (by simpa [World.idle, hm] using hmem')
      simp at this
  · rw [hb]
    have hnot : h ∉ suf.reverse := by
      intro hmem
      have := hbad h (by simpa using hmem)
      simp [hh] at this
    refine ⟨Or.inl ⟨rfl, by simp [World.idle, hm], hh, hnot⟩, ?_, by simp, fun _ => hnot⟩
    intro s hs
    have hs' : s ∈ suf := by simpa using hs
    exact ⟨hbad s hs', by simp [World.idle, hm, hs']⟩

/-- A call of `BorrowStream` only shortens idle lists: after it every idle list is
an initial segment of what it was. -/
theorem BorrowStream_idle_shrinks (ok : Stream Pri → Bool) (e : Nat) (P : Pri)
    (w : World Pri) (Q : Pri) :
    ∃ rest, w.idle Q = (BorrowStream ok e P w).world.idle Q ++ rest := by
  rcases BorrowStream_cases ok e P w with ⟨hm, hb⟩ | ⟨l, hm, hbad, hb⟩ |
    ⟨pre, h, suf, hm, hh, hbad, hb⟩
  · rw [hb]; exact ⟨[], by simp [World.idle]⟩
  · rw [hb]
    by_cases hQ : Q = P
    · subst hQ; exact ⟨l, by simp [World.idle, hm]⟩
    · exact ⟨[], by simp [World.idle, hQ]⟩
  · rw [hb]
    by_cases hQ : Q = P
    · subst hQ; exact ⟨h :: suf, by simp [World.idle, hm]⟩
    · exact ⟨[], by simp [World.idle, hQ]⟩

/-- C5. `ReturnStream(s)` for a healthy stream `s` of priority `P` makes the idle
list for `P` the old list (empty if there was none) followed by `s`, destroys
nothing, constructs nothing, and leaves the entry of every other priority as it
was.  Insertion happens nowhere else: `BorrowStream` only shortens idle lists,
`ReturnStream` of an unhealthy stream leaves the pool untouched, and a stream
that is in an idle list after a `ReturnStream` call and was not there before is
the returned stream, healthy at that call, in the list of its own priority. -/
theorem return_healthy_appends (ok : Stream Pri → Bool) (s : Stream Pri) (P : Pri)
    (w : World Pri) (hok : ok s = true) (hP : s.priority = P) :
    (ReturnStream ok s w).pool.streams_with_pri_ P = some (w.idle P ++ [s]) ∧
    (ReturnStream ok s w).freed = w.freed ∧
    (ReturnStream ok s w).next = w.next ∧
    (∀ Q, Q ≠ P →
      (ReturnStream ok s w).pool.streams_with_pri_ Q = w.pool.streams_with_pri_ Q) ∧
    (∀ (okB : Stream Pri → Bool) (e : Nat) (R Q : Pri),
      ∃ rest, w.idle Q = (BorrowStream okB e R w).world.idle Q ++ rest) ∧
    (∀ (okR : Stream Pri → Bool) (t : Stream Pri), okR t = false →
      (ReturnStream okR t w).pool = w.pool) ∧
    (∀ (okR : Stream Pri → Bool) (t u : Stream Pri) (Q : Pri),
      u ∈ (ReturnStream okR t w).idle Q → u ∉ w.idle Q →
        u = t ∧ okR t = true ∧ Q = t.priority) := by
  subst hP
  refine ⟨?_, ?_, ?_, ?_, ?_, ?_, ?_⟩
  · simp [ReturnStream_ok ok s w hok]
  · simp [ReturnStream_ok ok s w hok]
  · simp [ReturnStream_ok ok s w hok]
  · intro Q hQ
    simp [ReturnStream_ok ok s w hok, hQ]
  · intro okB e R Q
    exact BorrowStream_idle_shrinks okB e R w Q
  · intro okR t ht
    simp [ReturnStream_bad okR t w ht]
  · intro okR t u Q hu hnot
    cases ht : okR t with
    | false =>
      rw [ReturnStream_bad okR t w ht] at hu
      exact absurd hu hnot
    | true =>
      rw [ReturnStream_ok okR t w ht] at hu
      by_cases hQ : Q = t.priority
      · subst hQ
        have hu' : u ∈ w.idle t.priority ∨ u = t := by simpa [World.idle] using hu
        rcases hu' with hu' | hu'
        · exact absurd hu' hnot
        · exact ⟨hu', rfl, rfl⟩
      · have hu' : u ∈ w.idle Q := by simpa [World.idle, hQ] using hu
        exact absurd hu' hnot

/-- Instance of C5: the healthy stream 2 is returned to `demoWorld`. -/
theorem return_healthy_appends_witness :
    (fun _ : Stream Nat => true) { id := 2, executor := 7, priority := 0 } = true ∧
    (ReturnStream (fun _ => true) { id := 2, executor := 7, priority := 0 }
        demoWorld).pool.streams_with_pri_ 0
      = some [{ id := 0, executor := 7, priority := 0 }, { id := 1, executor := 7, priority := 0 },
              { id := 2, executor := 7, priority := 0 }] :=
  ⟨rfl, (return_healthy_appends (fun _ : Stream Nat => true)
    { id := 2, executor := 7, priority := 0 } 0 demoWorld rfl rfl).1⟩

/-- C6. `BorrowStream(executor, P)` constructs a stream exactly when the scan
finds no healthy stream: the map has no entry for `P`, or the idle list is
empty, or every stream in it is unhealthy.  The constructed stream is bound to
the given executor and has priority `P`, and an existing entry for `P` is left
empty (an absent one stays absent).  When a stream is reused, none is
constructed. -/
theorem borrow_creates_iff (ok : Stream Pri → Bool) (e : Nat) (P : Pri) (w : World Pri) :
    ((BorrowStream ok e P w).created = true ↔
      (w.pool.streams_with_pri_ P = none ∨ w.idle P = [] ∨ ∀ s ∈ w.idle P, ok s = false)) ∧
    ((BorrowStream ok e P w).created = true →
      (BorrowStream ok e P w).stream = { id := w.next, executor := e, priority := P } ∧
      (BorrowStream ok e P w).world.next = w.next + 1 ∧
      (∀ l, w.pool.streams_with_pri_ P = some l →
        (BorrowStream ok e P w).world.pool.streams_with_pri_ P = some []) ∧
      (w.pool.streams_with_pri_ P = none →
        (BorrowStream ok e P w).world.pool.streams_with_pri_ P = none)) ∧
    ((BorrowStream ok e P w).created = false →
      (BorrowStream ok e P w).world.next = w.next ∧
      (BorrowStream ok e P w).stream ∈ w.idle P ∧
      ok (BorrowStream ok e P w).stream = true) := by
  rcases BorrowStream_cases ok e P w with ⟨hm, hb⟩ | ⟨l, hm, hbad, hb⟩ |
    ⟨pre, h, suf, hm, hh, hbad, hb⟩
  · rw [hb]; simp [hm]
  · rw [hb]
    refine ⟨?_, ?_, by simp⟩
    · simp only [true_iff]
      right; right
      intro s hs
      exact hbad s (by simpa [World.idle, hm] using hs)
    · intro _
      simp [hm]
  · rw [hb]
    refine ⟨?_, by simp, ?_⟩
    · simp only [Bool.false_eq_true, false_iff, not_or]
      refine ⟨by simp [hm], by simp [World.idle, hm], ?_⟩
      intro hall
      have := hall h (by simp [World.idle, hm])
      simp [hh] at this
    · intro _
      exact ⟨rfl, by simp [World.idle, hm], hh⟩

/-! ## Sequences of calls -/

/-- Both operations keep every idle list homogeneous in priority. -/
theorem step_idle_priority (w : World Pri) (c : Call Pri)
    (hw : ∀ P s, s ∈ w.idle P → s.priority = P) :
    ∀ P s, s ∈ (step w c).idle P → s.priority = P := by
  intro Q s hs
  cases c with
  | borrow ok e P =>
    obtain ⟨rest, hrest⟩ := BorrowStream_idle_shrinks ok e P w Q
    exact hw Q s (by rw [hrest]; exact List.mem_append_left _ hs)
  | giveBack ok t =>
    simp only [step] at hs
    cases ht : ok t with
    | false =>
      rw [(ReturnStream_effect_bad ok t w ht).2.2.2 Q] at hs
      exact hw Q s hs
    | true =>
      rw [(ReturnStream_effect_ok ok t w ht).2.2.2 Q] at hs
      by_cases hQ : Q = t.priority
      · rw [if_pos hQ] at hs
        rcases List.mem_append.1 hs with hs | hs
        · exact hw Q s hs
        · simp at hs; subst hs; exact hQ.symm
      · rw [if_neg hQ] at hs
        exact hw Q s hs

theorem run_idle_priority (tr : List (Call Pri)) :
    ∀ w : World Pri, (∀ P s, s ∈ w.idle P → s.priority = P) →
      ∀ P s, s ∈ (run w tr).idle P → s.priority = P := by
  induction tr with
  | nil => intro w hw; exact hw
  | cons c cs ih => intro w hw; exact ih (step w c) (step_idle_priority w c hw)

/-- The stream handed out has the priority asked for when the idle lists are
homogeneous in priority. -/
theorem BorrowStream_priority (ok : Stream Pri → Bool) (e : Nat) (P : Pri) (w : World Pri)
    (hw : ∀ Q s, s ∈ w.idle Q → s.priority = Q) :
    (BorrowStream ok e P w).stream.priority = P := by
  rcases BorrowStream_effect ok e P w with ⟨_, hs, _⟩ | ⟨pre, h, suf, hi, _, _, hs, _⟩
  · rw [hs]
  · rw [hs]; exact hw P h (by simp [hi])

/-- C3. Priority matching: in every state reached from the empty pool by
`BorrowStream` and `ReturnStream` calls, each stream in the idle list keyed by
`P` has priority `P`, and `BorrowStream(executor, P)` made in such a state
hands out a stream of priority `P`, reused or new. -/
theorem borrow_priority_matches (tr : List (Call Pri)) :
    (∀ P s, s ∈ (run (World.empty : World Pri) tr).idle P → s.priority = P) ∧
    (∀ (ok : Stream Pri → Bool) (e : Nat) (P : Pri),
      (BorrowStream ok e P (run World.empty tr)).stream.priority = P) := by
  have h0 : ∀ P s, s ∈ (World.empty : World Pri).idle P → s.priority = P := by
    intro P s hs; simp [World.idle, World.empty] at hs
  have h := run_idle_priority tr World.empty h0
  exact ⟨h, fun ok e P => BorrowStream_priority ok e P _ h⟩

/-! ## Ownership -/

/-- A call of `BorrowStream` mentions no stream beyond those known before and
the one it constructs. -/
theorem BorrowStream_knows (ok : Stream Pri → Bool) (e : Nat) (P : Pri) (w : World Pri)
    (s : Stream Pri) (hs : (BorrowStream ok e P w).world.knows s) :
    w.knows s ∨ ((BorrowStream ok e P w).created = true ∧
      s = { id := w.next, executor := e, priority := P }) := by
  rcases BorrowStream_effect ok e P w with ⟨_, _, hc, _, hf, hb, hi⟩ |
    ⟨pre, h, suf, hP, _, _, _, _, _, hf, hb, hi⟩
  · rcases hs with hs | hs | ⟨Q, hs⟩
    · rw [hb] at hs
      rcases List.mem_append.1 hs with hs | hs
      · exact Or.inl (Or.inl hs)
      · exact Or.inr ⟨hc, by simpa using hs⟩
    · rw [hf] at hs
      rcases List.mem_append.1 hs with hs | hs
      · exact Or.inl (Or.inr (Or.inl hs))
      · exact Or.inl (Or.inr (Or.inr ⟨P, by simpa using hs⟩))
    · rw [hi Q] at hs
      by_cases hQ : Q = P
      · simp [hQ] at hs
      · rw [if_neg hQ] at hs
        exact Or.inl (Or.inr (Or.inr ⟨Q, hs⟩))
  · left
    rcases hs with hs | hs | ⟨Q, hs⟩
    · rw [hb] at hs
      rcases List.mem_append.1 hs with hs | hs
      · exact Or.inl hs
      · exact Or.inr (Or.inr ⟨P, by rw [hP]; simp at hs; simp [hs]⟩)
    · rw [hf] at hs
      rcases List.mem_append.1 hs with hs | hs
      · exact Or.inr (Or.inl hs)
      · exact Or.inr (Or.inr ⟨P, by rw [hP]; simp at hs; simp [hs]⟩)
    · rw [hi Q] at hs
      by_cases hQ : Q = P
      · rw [if_pos hQ] at hs
        exact Or.inr (Or.inr ⟨P, by rw [hP]; simp [hs]⟩)
      · rw [if_neg hQ] at hs
        exact Or.inr (Or.inr ⟨Q, hs⟩)

/-- A call of `ReturnStream` mentions no stream beyond those known before and
its argument. -/
theorem ReturnStream_knows (ok : Stream Pri → Bool) (t : Stream Pri) (w : World Pri)
    (s : Stream Pri) (hs : (ReturnStream ok t w).knows s) : w.knows s ∨ s = t := by
  cases ht : ok t with
  | false =>
    obtain ⟨_, hf, hb, hi⟩ := ReturnStream_effect_bad ok t w ht
    rcases hs with hs | hs | ⟨Q, hs⟩
    · rw [hb] at hs; exact Or.inl (Or.inl (List.mem_of_mem_erase hs))
    · rw [hf] at hs
      rcases List.mem_append.1 hs with hs | hs
      · exact Or.inl (Or.inr (Or.inl hs))
      · exact Or.inr (by simpa using hs)
    · rw [hi Q] at hs; exact Or.inl (Or.inr (Or.inr ⟨Q, hs⟩))
  | true =>
    obtain ⟨_, hf, hb, hi⟩ := ReturnStream_effect_ok ok t w ht
    rcases hs with hs | hs | ⟨Q, hs⟩
    · rw [hb] at hs; exact Or.inl (Or.inl (List.mem_of_mem_erase hs))
    · rw [hf] at hs; exact Or.inl (Or.inr (Or.inl hs))
    · rw [hi Q] at hs
      by_cases hQ : Q = t.priority
      · rw [if_pos hQ] at hs
        rcases List.mem_append.1 hs with hs | hs
        · exact Or.inl (Or.inr (Or.inr ⟨Q, hs⟩))
        · exact Or.inr (by simpa using hs)
      · rw [if_neg hQ] at hs
        exact Or.inl (Or.inr (Or.inr ⟨Q, hs⟩))

/-- A call of `BorrowStream` keeps the ownership discipline. -/
theorem Owned_borrow (ok : Stream Pri → Bool) (e : Nat) (P : Pri) (w : World Pri)
    (hw : Owned w) : Owned (BorrowStream ok e P w).world := by
  have hk := BorrowStream_knows ok e P w
  rcases BorrowStream_effect ok e P w with ⟨_, _, hc, hn, hf, hb, hi⟩ |
    ⟨pre, h, suf, hP, _, _, _, hc, hn, hf, hb, hi⟩
  · -- a stream is constructed
    have hfresh : ¬ w.knows { id := w.next, executor := e, priority := P } := by
      intro hkn
      have := hw.constructed _ hkn
      simp at this
    refine ⟨?_, ?_, ?_, ?_, ?_, ?_, ?_, ?_⟩
    · intro Q
      rw [hi Q]
      by_cases hQ : Q = P
      · simp [hQ]
      · rw [if_neg hQ]; exact hw.idle_nodup Q
    · intro Q s hs
      rw [hi Q] at hs
      by_cases hQ : Q = P
      · simp [hQ] at hs
      · rw [if_neg hQ] at hs; exact hw.idle_priority Q s hs
    · rw [hb]
      refine List.Nodup.append hw.borrowed_nodup (List.nodup_singleton _) ?_
      intro x hx hx'
      have : x = { id := w.next, executor := e, priority := P } := by simpa using hx'
      subst this
      exact hfresh (Or.inl hx)
    · intro Q s hs hs'
      rw [hi Q] at hs
      by_cases hQ : Q = P
      · simp [hQ] at hs
      · rw [if_neg hQ] at hs
        rw [hb] at hs'
        rcases List.mem_append.1 hs' with hs' | hs'
        · exact hw.idle_not_borrowed Q s hs hs'
        · have : s = { id := w.next, executor := e, priority := P } := by simpa using hs'
          subst this
          exact hfresh (Or.inr (Or.inr ⟨Q, hs⟩))
    · intro Q s hs hs'
      rw [hi Q] at hs'
      by_cases hQ : Q = P
      · simp [hQ] at hs'
      · rw [if_neg hQ] at hs'
        rw [hf] at hs
        rcases List.mem_append.1 hs with hs | hs
        · exact hw.freed_not_idle Q s hs hs'
        · have h1 := hw.idle_priority P s (by simpa using hs)
          have h2 := hw.idle_priority Q s hs'
          exact hQ (h2.symm.trans h1)
    · intro s hs hs'
      rw [hf] at hs
      rw [hb] at hs'
      rcases List.mem_append.1 hs' with hs' | hs'
      · rcases List.mem_append.1 hs with hs | hs
        · exact hw.freed_not_borrowed s hs hs'
        · exact hw.idle_not_borrowed P s (by simpa using hs) hs'
      · have : s = { id := w.next, executor := e, priority := P } := by simpa using hs'
        subst this
        rcases List.mem_append.1 hs with hs | hs
        · exact hfresh (Or.inr (Or.inl hs))
        · exact hfresh (Or.inr (Or.inr ⟨P, by simpa using hs⟩))
    · intro s hs
      rw [hn]
      rcases hk s hs with hs | ⟨_, hs⟩
      · exact Nat.lt_succ_of_lt (hw.constructed s hs)
      · subst hs; simp
    · intro s t hs ht hid
      rcases hk s hs with hs | ⟨_, hs⟩ <;> rcases hk t ht with ht | ⟨_, ht⟩
      · exact hw.id_inj s t hs ht hid
      · subst ht
        have := hw.constructed s hs
        simp at hid; omega
      · subst hs
        have := hw.constructed t ht
        simp at hid; omega
      · rw [hs, ht]
  · -- the stream `h` is reused
    have hnd : (pre ++ h :: suf).Nodup := hP ▸ hw.idle_nodup P
    have hmemP : ∀ x, x ∈ pre ++ h :: suf → x ∈ w.idle P := fun x hx => hP ▸ hx
    have hh_pre : h ∉ pre := by
      intro hmem
      have := (List.nodup_append.1 hnd).2.2 hmem (List.mem_cons_self h suf)
      exact this
    have hh_suf : h ∉ suf := by
      intro hmem
      have := (List.nodup_cons.1 (List.nodup_append.1 hnd).2.1).1
      exact this hmem
    have hpre_suf : ∀ x, x ∈ pre → x ∉ suf := by
      intro x hx hx'
      exact (List.nodup_append.1 hnd).2.2 hx (List.mem_cons_of_mem h hx')
    have hkn : ∀ s, (BorrowStream ok e P w).world.knows s → w.knows s := by
      intro s hs
      rcases hk s hs with hs | ⟨hcr, _⟩
      · exact hs
      · rw [hc] at hcr; exact absurd hcr (by simp)
    refine ⟨?_, ?_, ?_, ?_, ?_, ?_, ?_, ?_⟩
    · intro Q
      rw [hi Q]
      by_cases hQ : Q = P
      · rw [if_pos hQ]; exact (List.nodup_append.1 hnd).1
      · rw [if_neg hQ]; exact hw.idle_nodup Q
    · intro Q s hs
      rw [hi Q] at hs
      by_cases hQ : Q = P
      · rw [if_pos hQ] at hs
        rw [hQ]
        exact hw.idle_priority P s (hmemP s (List.mem_append_left _ hs))
      · rw [if_neg hQ] at hs; exact hw.idle_priority Q s hs
    · rw [hb]
      refine List.Nodup.append hw.borrowed_nodup (List.nodup_singleton _) ?_
      intro x hx hx'
      have : x = h := by simpa using hx'
      subst this
      exact hw.idle_not_borrowed P x (hmemP x (by simp)) hx
    · intro Q s hs hs'
      rw [hi Q] at hs
      rw [hb] at hs'
      by_cases hQ : Q = P
      · rw [if_pos hQ] at hs
        rcases List.mem_append.1 hs' with hs' | hs'
        · exact hw.idle_not_borrowed P s (hmemP s (List.mem_append_left _ hs)) hs'
        · have : s = h := by simpa using hs'
          subst this
          exact hh_pre hs
      · rw [if_neg hQ] at hs
        rcases List.mem_append.1 hs' with hs' | hs'
        · exact hw.idle_not_borrowed Q s hs hs'
        · have : s = h := by simpa using hs'
          subst this
          have h1 := hw.idle_priority P s (hmemP s (by simp))
          have h2 := hw.idle_priority Q s hs
          exact hQ (h2.symm.trans h1)
    · intro Q s hs hs'
      rw [hi Q] at hs'
      rw [hf] at hs
      by_cases hQ : Q = P
      · rw [if_pos hQ] at hs'
        rcases List.mem_append.1 hs with hs | hs
        · exact hw.freed_not_idle P s hs (hmemP s (List.mem_append_left _ hs'))
        · exact hpre_suf s hs' (by simpa using hs)
      · rw [if_neg hQ] at hs'
        rcases List.mem_append.1 hs with hs | hs
        · exact hw.freed_not_idle Q s hs hs'
        · have h1 := hw.idle_priority P s (hmemP s (by simp at hs; simp [hs]))
          have h2 := hw.idle_priority Q s hs'
          exact hQ (h2.symm.trans h1)
    · intro s hs hs'
      rw [hf] at hs
      rw [hb] at hs'
      rcases List.mem_append.1 hs' with hs' | hs'
      · rcases List.mem_append.1 hs with hs | hs
        · exact hw.freed_not_borrowed s hs hs'
        · exact hw.idle_not_borrowed P s (hmemP s (by simp at hs; simp [hs])) hs'
      · have : s = h := by simpa using hs'
        subst this
        rcases List.mem_append.1 hs with hs | hs
        · exact hw.freed_not_idle P s hs (hmemP s (by simp))
        · exact hh_suf (by simpa using hs)
    · intro s hs
      rw [hn]
      exact hw.constructed s (hkn s hs)
    · intro s t hs ht hid
      exact hw.id_inj s t (hkn s hs) (hkn t ht) hid

/-- A call of `ReturnStream` on a borrowed stream keeps the ownership discipline. -/
theorem Owned_return (ok : Stream Pri → Bool) (t : Stream Pri) (w : World Pri)
    (hw : Owned w) (ht : t ∈ w.borrowed) : Owned (ReturnStream ok t w) := by
  have hkn : ∀ s, (ReturnStream ok t w).knows s → w.knows s := by
    intro s hs
    rcases ReturnStream_knows ok t w s hs with hs | hs
    · exact hs
    · subst hs; exact Or.inl ht
  have hnot : t ∉ w.borrowed.erase t := by
    intro hmem
    exact ((List.Nodup.mem_erase_iff hw.borrowed_nodup).1 hmem).1 rfl
  have ht_idle : ∀ Q, t ∉ w.idle Q := fun Q hmem => hw.idle_not_borrowed Q t hmem ht
  have ht_freed : t ∉ w.freed := fun hmem => hw.freed_not_borrowed t hmem ht
  cases hok : ok t with
  | false =>
    obtain ⟨hn, hf, hb, hi⟩ := ReturnStream_effect_bad ok t w hok
    refine ⟨?_, ?_, ?_, ?_, ?_, ?_, ?_, ?_⟩
    · intro Q; rw [hi Q]; exact hw.idle_nodup Q
    · intro Q s hs; rw [hi Q] at hs; exact hw.idle_priority Q s hs
    · rw [hb]; exact hw.borrowed_nodup.erase t
    · intro Q s hs hs'
      rw [hi Q] at hs
      rw [hb] at hs'
      exact hw.idle_not_borrowed Q s hs (List.mem_of_mem_erase hs')
    · intro Q s hs hs'
      rw [hi Q] at hs'
      rw [hf] at hs
      rcases List.mem_append.1 hs with hs | hs
      · exact hw.freed_not_idle Q s hs hs'
      · have : s = t := by simpa using hs
        subst this
        exact ht_idle Q hs'
    · intro s hs hs'
      rw [hf] at hs
      rw [hb] at hs'
      rcases List.mem_append.1 hs with hs | hs
      · exact hw.freed_not_borrowed s hs (List.mem_of_mem_erase hs')
      · have : s = t := by simpa using hs
        subst this
        exact hnot hs'
    · intro s hs; rw [hn]; exact hw.constructed s (hkn s hs)
    · intro s u hs hu hid; exact hw.id_inj s u (hkn s hs) (hkn u hu) hid
  | true =>
    obtain ⟨hn, hf, hb, hi⟩ := ReturnStream_effect_ok ok t w hok
    refine ⟨?_, ?_, ?_, ?_, ?_, ?_, ?_, ?_⟩
    · intro Q
      rw [hi Q]
      by_cases hQ : Q = t.priority
      · rw [if_pos hQ]
        refine List.Nodup.append (hw.idle_nodup Q) (List.nodup_singleton _) ?_
        intro x hx hx'
        have : x = t := by simpa using hx'
        subst this
        exact ht_idle Q hx
      · rw [if_neg hQ]; exact hw.idle_nodup Q
    · intro Q s hs
      rw [hi Q] at hs
      by_cases hQ : Q = t.priority
      · rw [if_pos hQ] at hs
        rcases List.mem_append.1 hs with hs | hs
        · exact hw.idle_priority Q s hs
        · have : s = t := by simpa using hs
          subst this
          exact hQ.symm
      · rw [if_neg hQ] at hs; exact hw.idle_priority Q s hs
    · rw [hb]; exact hw.borrowed_nodup.erase t
    · intro Q s hs hs'
      rw [hi Q] at hs
      rw [hb] at hs'
      have hcase : s ∈ w.idle Q ∨ s = t := by
        by_cases hQ : Q = t.priority
        · rw [if_pos hQ] at hs
          rcases List.mem_append.1 hs with hs | hs
          · exact Or.inl hs
          · exact Or.inr (by simpa using hs)
        · rw [if_neg hQ] at hs; exact Or.inl hs
      rcases hcase with hs | hs
      · exact hw.idle_not_borrowed Q s hs (List.mem_of_mem_erase hs')
      · subst hs; exact hnot hs'
    · intro Q s hs hs'
      rw [hi Q] at hs'
      rw [hf] at hs
      have hcase : s ∈ w.idle Q ∨ s = t := by
        by_cases hQ : Q = t.priority
        · rw [if_pos hQ] at hs'
          rcases List.mem_append.1 hs' with hs' | hs'
          · exact Or.inl hs'
          · exact Or.inr (by simpa using hs')
        · rw [if_neg hQ] at hs'; exact Or.inl hs'
      rcases hcase with hs' | hs'
      · exact hw.freed_not_idle Q s hs hs'
      · subst hs'; exact ht_freed hs
    · intro s hs hs'
      rw [hf] at hs
      rw [hb] at hs'
      exact hw.freed_not_borrowed s hs (List.mem_of_mem_erase hs')
    · intro s hs; rw [hn]; exact hw.constructed s (hkn s hs)
    · intro s u hs hu hid; exact hw.id_inj s u (hkn s hs) (hkn u hu) hid

/-- The ownership discipline holds along every sequence of calls in which
`ReturnStream` is made on borrowed streams only. -/
theorem Owned_run (tr : List (Call Pri)) :
    ∀ w : World Pri, Owned w → wellUsed w tr = true → Owned (run w tr) := by
  induction tr with
  | nil => intro w hw _; exact hw
  | cons c cs ih =>
    intro w hw hu
    cases c with
    | borrow ok e P =>
      simp only [wellUsed] at hu
      exact ih _ (Owned_borrow ok e P w hw) hu
    | giveBack ok t =>
      simp only [wellUsed, Bool.and_eq_true, decide_eq_true_eq] at hu
      exact ih _ (Owned_return ok t w hw hu.1) hu.2

/-! ## Live streams -/

/-- A call of `BorrowStream` forgets no stream. -/
theorem knows_borrow (ok : Stream Pri → Bool) (e : Nat) (P : Pri) (w : World Pri)
    (s : Stream Pri) (hs : w.knows s) : (BorrowStream ok e P w).world.knows s := by
  rcases BorrowStream_effect ok e P w with ⟨_, _, _, _, hf, hb, hi⟩ |
    ⟨pre, h, suf, hP, _, _, _, _, _, hf, hb, hi⟩
  · rcases hs with hs | hs | ⟨Q, hs⟩
    · exact Or.inl (by rw [hb]; exact List.mem_append_left _ hs)
    · exact Or.inr (Or.inl (by rw [hf]; exact List.mem_append_left _ hs))
    · by_cases hQ : Q = P
      · subst hQ
        exact Or.inr (Or.inl (by rw [hf]; exact List.mem_append_right _ (by simpa using hs)))
      · exact Or.inr (Or.inr ⟨Q, by rw [hi Q, if_neg hQ]; exact hs⟩)
  · rcases hs with hs | hs | ⟨Q, hs⟩
    · exact Or.inl (by rw [hb]; exact List.mem_append_left _ hs)
    · exact Or.inr (Or.inl (by rw [hf]; exact List.mem_append_left _ hs))
    · by_cases hQ : Q = P
      · subst hQ
        rw [hP] at hs
        rcases List.mem_append.1 hs with hs | hs
        · exact Or.inr (Or.inr ⟨Q, by rw [hi Q, if_pos rfl]; exact hs⟩)
        · rcases List.mem_cons.1 hs with hs | hs
          · exact Or.inl (by rw [hb, hs]; simp)
          · exact Or.inr (Or.inl (by rw [hf]; exact List.mem_append_right _ (by simpa using hs)))
      · exact Or.inr (Or.inr ⟨Q, by rw [hi Q, if_neg hQ]; exact hs⟩)

/-- A call of `ReturnStream` forgets no stream. -/
theorem knows_return (ok : Stream Pri → Bool) (t : Stream Pri) (w : World Pri)
    (s : Stream Pri) (hs : w.knows s) : (ReturnStream ok t w).knows s := by
  have hidle : ∀ Q, s ∈ w.idle Q → s ∈ (ReturnStream ok t w).idle Q := by
    intro Q hmem
    cases hok : ok t with
    | false => rw [(ReturnStream_effect_bad ok t w hok).2.2.2 Q]; exact hmem
    | true =>
      rw [(ReturnStream_effect_ok ok t w hok).2.2.2 Q]
      by_cases hQ : Q = t.priority
      · rw [if_pos hQ]; exact List.mem_append_left _ hmem
      · rw [if_neg hQ]; exact hmem
  have hfreed : s ∈ w.freed → s ∈ (ReturnStream ok t w).freed := by
    intro hmem
    cases hok : ok t with
    | false => rw [(ReturnStream_effect_bad ok t w hok).2.1]; exact List.mem_append_left _ hmem
    | true => rw [(ReturnStream_effect_ok ok t w hok).2.1]; exact hmem
  rcases hs with hs | hs | ⟨Q, hs⟩
  · by_cases hst : s = t
    · subst hst
      cases hok : ok s with
      | false =>
        exact Or.inr (Or.inl (by rw [(ReturnStream_effect_bad ok s w hok).2.1]; simp))
      | true =>
        exact Or.inr (Or.inr ⟨s.priority,
          by rw [(ReturnStream_effect_ok ok s w hok).2.2.2 s.priority, if_pos rfl]; simp⟩)
    · left
      have hb : (ReturnStream ok t w).borrowed = w.borrowed.erase t := by
        cases hok : ok t with
        | false => exact (ReturnStream_effect_bad ok t w hok).2.2.1
        | true => exact (ReturnStream_effect_ok ok t w hok).2.2.1
      rw [hb]
      exact (List.mem_erase_of_ne hst).2 hs
  · exact Or.inr (Or.inl (hfreed hs))
  · exact Or.inr (Or.inr ⟨Q, hidle Q hs⟩)

/-- Nothing is lost: along every sequence of calls, each stream constructed so
far is known to the state as borrowed, destroyed or idle. -/
theorem run_complete (tr : List (Call Pri)) :
    ∀ w : World Pri, (∀ i, i < w.next → ∃ s, s.id = i ∧ w.knows s) →
      ∀ i, i < (run w tr).next → ∃ s, s.id = i ∧ (run w tr).knows s := by
  induction tr with
  | nil => intro w hw; exact hw
  | cons c cs ih =>
    intro w hw
    cases c with
    | borrow ok e P =>
      refine ih (BorrowStream ok e P w).world ?_
      intro i hi
      rcases BorrowStream_effect ok e P w with ⟨_, _, _, hn, _, hbr, _⟩ |
        ⟨pre, h, suf, _, _, _, _, _, hn, _, _, _⟩
      · rw [hn] at hi
        by_cases hlt : i < w.next
        · obtain ⟨s, hs, hk⟩ := hw i hlt
          exact ⟨s, hs, knows_borrow ok e P w s hk⟩
        · have : i = w.next := by omega
          subst this
          exact ⟨{ id := w.next, executor := e, priority := P }, rfl,
            Or.inl (by rw [hbr]; simp)⟩
      · rw [hn] at hi
        obtain ⟨s, hs, hk⟩ := hw i hi
        exact ⟨s, hs, knows_borrow ok e P w s hk⟩
    | giveBack ok t =>
      refine ih (ReturnStream ok t w) ?_
      intro i hi
      have hn : (ReturnStream ok t w).next = w.next := by
        cases hok : ok t with
        | false => exact (ReturnStream_effect_bad ok t w hok).1
        | true => exact (ReturnStream_effect_ok ok t w hok).1
      rw [hn] at hi
      obtain ⟨s, hs, hk⟩ := hw i hi
      exact ⟨s, hs, knows_return ok t w s hk⟩

/-- What holds along a sequence of calls at one priority `P`: every constructed
stream is known to the state, borrowed streams have priority `P`, and idle
streams sit in the list for `P`. -/
theorem run_at_priority (P : Pri) (tr : List (Call Pri)) :
    ∀ w : World Pri,
      (∀ i, i < w.next → ∃ s, s.id = i ∧ w.knows s) →
      (∀ s, s ∈ w.borrowed → s.priority = P) →
      (∀ Q s, s ∈ w.idle Q → Q = P ∧ s.priority = P) →
      wellUsed w tr = true → atPriority P tr = true →
      (∀ i, i < (run w tr).next → ∃ s, s.id = i ∧ (run w tr).knows s) ∧
      (∀ s, s ∈ (run w tr).borrowed → s.priority = P) ∧
      (∀ Q s, s ∈ (run w tr).idle Q → Q = P ∧ s.priority = P) := by
  induction tr with
  | nil => intro w ha hb hc _ _; exact ⟨ha, hb, hc⟩
  | cons c cs ih =>
    intro w ha hb hc hu hp
    cases c with
    | borrow ok e R =>
      simp only [wellUsed] at hu
      simp only [atPriority, Bool.and_eq_true, decide_eq_true_eq] at hp
      obtain ⟨hR, hp⟩ := hp
      subst hR
      refine ih (BorrowStream ok e R w).world ?_ ?_ ?_ hu hp
      · intro i hi
        rcases BorrowStream_effect ok e R w with ⟨_, _, _, hn, _, hbr, _⟩ |
          ⟨pre, h, suf, _, _, _, _, _, hn, _, _, _⟩
        · rw [hn] at hi
          by_cases hlt : i < w.next
          · obtain ⟨s, hs, hk⟩ := ha i hlt
            exact ⟨s, hs, knows_borrow ok e R w s hk⟩
          · have : i = w.next := by omega
            subst this
            exact ⟨{ id := w.next, executor := e, priority := R }, rfl,
              Or.inl (by rw [hbr]; simp)⟩
        · rw [hn] at hi
          obtain ⟨s, hs, hk⟩ := ha i hi
          exact ⟨s, hs, knows_borrow ok e R w s hk⟩
      · intro s hs
        rcases BorrowStream_effect ok e R w with ⟨_, _, _, _, _, hbr, _⟩ |
          ⟨pre, h, suf, hP, _, _, _, _, _, _, hbr, _⟩
        · rw [hbr] at hs
          rcases List.mem_append.1 hs with hs | hs
          · exact hb s hs
          · have : s = { id := w.next, executor := e, priority := R } := by simpa using hs
            rw [this]
        · rw [hbr] at hs
          rcases List.mem_append.1 hs with hs | hs
          · exact hb s hs
          · have : s = h := by simpa using hs
            subst this
            exact (hc R s (by rw [hP]; simp)).2
      · intro Q s hs
        obtain ⟨rest, hrest⟩ := BorrowStream_idle_shrinks ok e R w Q
        exact hc Q s (by rw [hrest]; exact List.mem_append_left _ hs)
    | giveBack ok t =>
      simp only [wellUsed, Bool.and_eq_true, decide_eq_true_eq] at hu
      simp only [atPriority] at hp
      refine ih (ReturnStream ok t w) ?_ ?_ ?_ hu.2 hp
      · intro i hi
        have hn : (ReturnStream ok t w).next = w.next := by
          cases hok : ok t with
          | false => exact (ReturnStream_effect_bad ok t w hok).1
          | true => exact (ReturnStream_effect_ok ok t w hok).1
        rw [hn] at hi
        obtain ⟨s, hs, hk⟩ := ha i hi
        exact ⟨s, hs, knows_return ok t w s hk⟩
      · intro s hs
        have hbr : (ReturnStream ok t w).borrowed = w.borrowed.erase t := by
          cases hok : ok t with
          | false => exact (ReturnStream_effect_bad ok t w hok).2.2.1
          | true => exact (ReturnStream_effect_ok ok t w hok).2.2.1
        rw [hbr] at hs
        exact hb s (List.mem_of_mem_erase hs)
      · intro Q s hs
        cases hok : ok t with
        | false =>
          rw [(ReturnStream_effect_bad ok t w hok).2.2.2 Q] at hs
          exact hc Q s hs
        | true =>
          rw [(ReturnStream_effect_ok ok t w hok).2.2.2 Q] at hs
          by_cases hQ : Q = t.priority
          · rw [if_pos hQ] at hs
            rcases List.mem_append.1 hs with hs | hs
            · exact hc Q s hs
            · have : s = t := by simpa using hs
              subst this
              exact ⟨hQ.trans (hb s hu.1), hb s hu.1⟩
          · rw [if_neg hQ] at hs
            exact hc Q s hs

/-- C8, as stated, fails: after `demoCalls` two streams are live, none is
borrowed, and only one of the two idle streams is healthy (stream 0 failed
while idle and stays in the list until a scan reaches it). -/
theorem live_bound_counterexample :
    wellUsed World.empty demoCalls = true ∧ atPriority 0 demoCalls = true ∧
    (run World.empty demoCalls).live.length = 2 ∧
    (run World.empty demoCalls).borrowed.length = 0 ∧
    (((run World.empty demoCalls).idle 0).filter fun t => t.id != 0).length = 1 ∧
    ¬ ((run World.empty demoCalls).live.length ≤
        (run World.empty demoCalls).borrowed.length +
          (((run World.empty demoCalls).idle 0).filter fun t => t.id != 0).length) := by
  decide

/-- C8, amended. Along every sequence of `BorrowStream`/`ReturnStream` calls at a
fixed priority `P` from the empty pool (returns made on borrowed streams), the
number of live streams never exceeds the number of borrowed streams plus the
number of streams in the idle list for `P`, healthy or not. -/
theorem live_bound (P : Pri) (tr : List (Call Pri))
    (hu : wellUsed (World.empty : World Pri) tr = true) (hp : atPriority P tr = true) :
    (run (World.empty : World Pri) tr).live.length ≤
      (run (World.empty : World Pri) tr).borrowed.length +
        ((run (World.empty : World Pri) tr).idle P).length := by
  obtain ⟨ha, _, hc⟩ := run_at_priority P tr World.empty
    (by intro i hi; simp [World.empty] at hi)
    (by intro s hs; simp [World.empty] at hs)
    (by intro Q s hs; simp [World.idle, World.empty] at hs) hu hp
  generalize run (World.empty : World Pri) tr = w at ha hc
  have hnd : w.live.Nodup := (List.nodup_range w.next).filter _
  have hsub : w.live ⊆ (w.borrowed ++ w.idle P).map Stream.id := by
    intro i hi
    simp only [World.live, List.mem_filter, List.mem_range, List.all_eq_true, bne_iff_ne,
      ne_eq] at hi
    obtain ⟨s, hs, hk⟩ := ha i hi.1
    rcases hk with hk | hk | ⟨Q, hk⟩
    · exact List.mem_map.2 ⟨s, List.mem_append_left _ hk, hs⟩
    · exact absurd hs (hi.2 s hk)
    · have hQ := (hc Q s hk).1
      subst hQ
      exact List.mem_map.2 ⟨s, List.mem_append_right _ hk, hs⟩
  have hlen := (hnd.subperm hsub).length_le
  simpa using hlen

/-- Instance of the amended C8 at `demoCalls`: two live streams, both idle. -/
theorem live_bound_witness :
    wellUsed World.empty demoCalls = true ∧ atPriority 0 demoCalls = true ∧
    (run World.empty demoCalls).live.length ≤
      (run World.empty demoCalls).borrowed.length + ((run World.empty demoCalls).idle 0).length :=
  ⟨by decide, by decide, live_bound 0 demoCalls (by decide) (by decide)⟩

/-- C9. Ownership discipline: in every state reached from the empty pool by
`BorrowStream` calls and `ReturnStream` calls made on currently borrowed
streams, each live stream is owned by exactly one holder.  No stream occurs
twice in an idle list or in two idle lists, no idle stream is borrowed, no
stream is wrapped by two handles, no destroyed stream is idle or borrowed, and
the streams of the state are constructed objects that are equal whenever their
identities are.  Every live stream (constructed and not destroyed) is held:
either by a handle and by no idle list, or by the idle list of one priority and
by no handle and no other idle list; and every stream held by a handle or an
idle list is live. -/
theorem ownership_discipline (tr : List (Call Pri))
    (hu : wellUsed (World.empty : World Pri) tr = true) :
    (∀ P, ((run (World.empty : World Pri) tr).idle P).Nodup) ∧
    (∀ P Q s, P ≠ Q → s ∈ (run (World.empty : World Pri) tr).idle P →
      s ∉ (run (World.empty : World Pri) tr).idle Q) ∧
    (∀ P s, s ∈ (run (World.empty : World Pri) tr).idle P →
      s ∉ (run (World.empty : World Pri) tr).borrowed) ∧
    (run (World.empty : World Pri) tr).borrowed.Nodup ∧
    (∀ s, s ∈ (run (World.empty : World Pri) tr).freed →
      s ∉ (run (World.empty : World Pri) tr).borrowed ∧
      ∀ P, s ∉ (run (World.empty : World Pri) tr).idle P) ∧
    (∀ s t, (run (World.empty : World Pri) tr).knows s →
      (run (World.empty : World Pri) tr).knows t →
      (s.id < (run (World.empty : World Pri) tr).next ∧ (s.id = t.id → s = t))) ∧
    (∀ i, i ∈ (run (World.empty : World Pri) tr).live →
      ∃ s, s.id = i ∧
        ((s ∈ (run (World.empty : World Pri) tr).borrowed ∧
            ∀ P, s ∉ (run (World.empty : World Pri) tr).idle P) ∨
          (s ∉ (run (World.empty : World Pri) tr).borrowed ∧
            ∃ P, s ∈ (run (World.empty : World Pri) tr).idle P ∧
              ∀ Q, Q ≠ P → s ∉ (run (World.empty : World Pri) tr).idle Q)) ∧
        ∀ t, (run (World.empty : World Pri) tr).knows t → t.id = i → t = s) ∧
    (∀ s, (s ∈ (run (World.empty : World Pri) tr).borrowed ∨
        ∃ P, s ∈ (run (World.empty : World Pri) tr).idle P) →
      s.id ∈ (run (World.empty : World Pri) tr).live) := by
  have h := Owned_run tr World.empty Owned_empty hu
  have hc := run_complete tr (World.empty : World Pri)
    (by intro i hi; simp [World.empty] at hi)
  generalize run (World.empty : World Pri) tr = w at h hc
  have hlive : ∀ i, i ∈ w.live ↔ i < w.next ∧ ∀ s ∈ w.freed, s.id ≠ i := by
    intro i
    simp [World.live]
  refine ⟨h.idle_nodup, ?_, h.idle_not_borrowed, h.borrowed_nodup, ?_, ?_, ?_, ?_⟩
  · intro P Q s hPQ hs hs'
    exact hPQ ((h.idle_priority P s hs).symm.trans (h.idle_priority Q s hs'))
  · intro s hs
    exact ⟨h.freed_not_borrowed s hs, fun P => h.freed_not_idle P s hs⟩
  · intro s t hs ht
    exact ⟨h.constructed s hs, h.id_inj s t hs ht⟩
  · intro i hi
    obtain ⟨hlt, hnf⟩ := (hlive i).1 hi
    obtain ⟨s, hs, hk⟩ := hc i hlt
    refine ⟨s, hs, ?_, ?_⟩
    · rcases hk with hb | hf | ⟨P, hP⟩
      · exact Or.inl ⟨hb, fun P hP => h.idle_not_borrowed P s hP hb⟩
      · exact absurd hs (hnf s hf)
      · refine Or.inr ⟨h.idle_not_borrowed P s hP, P, hP, ?_⟩
        intro Q hQ hmem
        exact hQ ((h.idle_priority Q s hmem).symm.trans (h.idle_priority P s hP))
    · intro t ht hti
      exact h.id_inj t s ht hk (hti.trans hs.symm)
  · intro s hs
    have hk : w.knows s := by
      rcases hs with hb | ⟨P, hP⟩
      · exact Or.inl hb
      · exact Or.inr (Or.inr ⟨P, hP⟩)
    refine (hlive s.id).2 ⟨h.constructed s hk, ?_⟩
    intro t ht hid
    have hts : t = s := h.id_inj t s (Or.inr (Or.inl ht)) hk hid
    subst hts
    rcases hs with hb | ⟨P, hP⟩
    · exact h.freed_not_borrowed t ht hb
    · exact h.freed_not_idle P t ht hP

/-- Instance of C9 at `demoCalls`: the idle list holds no duplicate and no
borrowed stream, and the live stream 0 has a holder. -/
theorem ownership_discipline_witness :
    wellUsed World.empty demoCalls = true ∧
    ((run World.empty demoCalls).idle 0).Nodup ∧
    (∀ s, s ∈ (run World.empty demoCalls).idle 0 → s ∉ (run World.empty demoCalls).borrowed) ∧
    (0 ∈ (run World.empty demoCalls).live ∧
      ∃ s : Stream Nat, s.id = 0 ∧
        (s ∈ (run World.empty demoCalls).borrowed ∨ ∃ P, s ∈ (run World.empty demoCalls).idle P)) :=
  ⟨by decide, (ownership_discipline demoCalls (by decide)).1 0,
    (ownership_discipline demoCalls (by decide)).2.2.1 0,
    by decide,
    match (ownership_discipline demoCalls (by decide)).2.2.2.2.2.2.1 0 (by decide) with
    | ⟨s, hs, Or.inl hb, _⟩ => ⟨s, hs, Or.inl hb.1⟩
    | ⟨s, hs, Or.inr ⟨_, P, hP, _⟩, _⟩ => ⟨s, hs, Or.inr ⟨P, hP⟩⟩⟩

/-! ## Unhealthy returns and repeated cycles -/

/-- A stream that is constructed, not idle and not borrowed is handed out by no
later `BorrowStream` call, as long as `ReturnStream` is made on borrowed
streams only. -/
theorem not_handed_out (s : Stream Pri) (tr : List (Call Pri)) :
    ∀ w : World Pri, s.id < w.next → (∀ P, s ∉ w.idle P) → s ∉ w.borrowed →
      wellUsed w tr = true → s ∉ handedOut w tr := by
  induction tr with
  | nil => intro w _ _ _ _; simp [handedOut]
  | cons c cs ih =>
    intro w hid hidle hbor hu
    cases c with
    | borrow ok e P =>
      simp only [wellUsed] at hu
      simp only [handedOut, List.mem_cons, not_or]
      have hne : s ≠ (BorrowStream ok e P w).stream := by
        rcases BorrowStream_effect ok e P w with ⟨_, hs, _⟩ | ⟨pre, h, suf, hP, _, _, hs, _⟩
        · rw [hs]
          intro heq
          rw [heq] at hid
          simp at hid
        · rw [hs]
          intro heq
          subst heq
          exact hidle P (by rw [hP]; simp)
      refine ⟨hne, ih (BorrowStream ok e P w).world ?_ ?_ ?_ hu⟩
      · rcases BorrowStream_effect ok e P w with ⟨_, _, _, hn, _⟩ |
          ⟨pre, h, suf, _, _, _, _, _, hn, _⟩
        · rw [hn]; omega
        · rw [hn]; exact hid
      · intro Q hmem
        obtain ⟨rest, hrest⟩ := BorrowStream_idle_shrinks ok e P w Q
        exact hidle Q (by rw [hrest]; exact List.mem_append_left _ hmem)
      · have hb : (BorrowStream ok e P w).world.borrowed
            = w.borrowed ++ [(BorrowStream ok e P w).stream] := by
          rcases BorrowStream_effect ok e P w with ⟨_, hs, _, _, _, hb, _⟩ |
            ⟨pre, h, suf, _, _, _, hs, _, _, _, hb, _⟩
          · rw [hb, hs]
          · rw [hb, hs]
        rw [hb]
        intro hmem
        rcases List.mem_append.1 hmem with hmem | hmem
        · exact hbor hmem
        · exact hne (by simpa using hmem)
    | giveBack ok t =>
      simp only [wellUsed, Bool.and_eq_true, decide_eq_true_eq] at hu
      simp only [handedOut]
      have hne : s ≠ t := fun heq => hbor (heq ▸ hu.1)
      refine ih (ReturnStream ok t w) ?_ ?_ ?_ hu.2
      · cases hok : ok t with
        | false => rw [(ReturnStream_effect_bad ok t w hok).1]; exact hid
        | true => rw [(ReturnStream_effect_ok ok t w hok).1]; exact hid
      · intro Q hmem
        cases hok : ok t with
        | false =>
          rw [(ReturnStream_effect_bad ok t w hok).2.2.2 Q] at hmem
          exact hidle Q hmem
        | true =>
          rw [(ReturnStream_effect_ok ok t w hok).2.2.2 Q] at hmem
          by_cases hQ : Q = t.priority
          · rw [if_pos hQ] at hmem
            rcases List.mem_append.1 hmem with hmem | hmem
            · exact hidle Q hmem
            · exact hne (by simpa using hmem)
          · rw [if_neg hQ] at hmem
            exact hidle Q hmem
      · intro hmem
        have hb : (ReturnStream ok t w).borrowed = w.borrowed.erase t := by
          cases hok : ok t with
          | false => exact (ReturnStream_effect_bad ok t w hok).2.2.1
          | true => exact (ReturnStream_effect_ok ok t w hok).2.2.1
        rw [hb] at hmem
        exact hbor (List.mem_of_mem_erase hmem)

/-- C4. `ReturnStream(s)` of an unhealthy stream destroys `s` and leaves the pool,
hence every idle list, as it was.  Consequently, when `s` was a constructed
stream held by one handle and by no idle list, no later `BorrowStream` call
hands it out (returns being made on borrowed streams); a `BorrowStream` at
which `s` is still unhealthy never hands it out; and a `BorrowStream(P)` that
finds the idle list for `P` empty after the return constructs a stream
different from `s`. -/
theorem return_unhealthy_frees (ok : Stream Pri → Bool) (s : Stream Pri) (w : World Pri)
    (hbad : ok s = false) :
    (ReturnStream ok s w).freed = w.freed ++ [s] ∧
    (ReturnStream ok s w).pool = w.pool ∧
    (s.id < w.next → (∀ P, s ∉ w.idle P) → s ∉ w.borrowed.erase s →
      ∀ tr, wellUsed (ReturnStream ok s w) tr = true →
        s ∉ handedOut (ReturnStream ok s w) tr) ∧
    (∀ (v : World Pri) (okB : Stream Pri → Bool) (e : Nat) (P : Pri),
      okB s = false → s.id < v.next → (BorrowStream okB e P v).stream ≠ s) ∧
    (∀ (okB : Stream Pri → Bool) (e : Nat) (P : Pri),
      s.id < w.next → (ReturnStream ok s w).idle P = [] →
        (BorrowStream okB e P (ReturnStream ok s w)).created = true ∧
        (BorrowStream okB e P (ReturnStream ok s w)).stream
          = { id := w.next, executor := e, priority := P } ∧
        (BorrowStream okB e P (ReturnStream ok s w)).stream ≠ s) := by
  obtain ⟨hn, hf, hb, hi⟩ := ReturnStream_effect_bad ok s w hbad
  refine ⟨hf, by rw [ReturnStream_bad ok s w hbad], ?_, ?_, ?_⟩
  · intro hid hidle hone tr hu
    refine not_handed_out s tr (ReturnStream ok s w) (by rw [hn]; exact hid) ?_ ?_ hu
    · intro P; rw [hi P]; exact hidle P
    · rw [hb]; exact hone
  · intro v okB e P hs hid
    rcases BorrowStream_effect okB e P v with ⟨_, hst, _⟩ | ⟨pre, h, suf, _, hh, _, hst, _⟩
    · rw [hst]
      intro heq
      rw [← heq] at hid
      simp at hid
    · rw [hst]
      intro heq
      rw [heq, hs] at hh
      exact absurd hh (by simp)
  · intro okB e P hid hempty
    rcases BorrowStream_effect okB e P (ReturnStream ok s w) with
      ⟨_, hst, hc, _⟩ | ⟨pre, h, suf, hP, _⟩
    · rw [hn] at hst
      refine ⟨hc, hst, ?_⟩
      rw [hst]
      intro heq
      rw [← heq] at hid
      simp at hid
    · rw [hempty] at hP
      simp at hP

/-- Instance of C4: the borrowed stream 2 of `demoWorld` has failed and is
returned; a borrow, a return of the borrowed stream 1 and another borrow
follow. -/
theorem return_unhealthy_frees_witness :
    (fun t : Stream Nat => t.id != 2) { id := 2, executor := 7, priority := 0 } = false ∧
    (ReturnStream (fun t => t.id != 2) { id := 2, executor := 7, priority := 0 }
      demoWorld).freed = [{ id := 2, executor := 7, priority := 0 }] ∧
    ({ id := 2, executor := 7, priority := 0 } : Stream Nat) ∉
      handedOut
        (ReturnStream (fun t => t.id != 2) { id := 2, executor := 7, priority := 0 } demoWorld)
        [ Call.borrow (fun t => t.id != 2) 7 0,
          Call.giveBack (fun t => t.id != 2) { id := 1, executor := 7, priority := 0 },
          Call.borrow (fun t => t.id != 2) 7 1 ] :=
  have h := return_unhealthy_frees (fun t : Stream Nat => t.id != 2)
    { id := 2, executor := 7, priority := 0 } demoWorld rfl
  ⟨rfl, h.1, h.2.2.1 (by decide)
    (by intro P; by_cases hP : P = 0 <;> simp [World.idle, demoWorld, hP])
    (by decide) _ (by decide)⟩

/-- The first cycle on an empty idle list constructs a stream and leaves it as
the only idle stream. -/
theorem cycle_first (ok : Stream Pri → Bool) (e : Nat) (P : Pri) (w : World Pri)
    (hidle : w.idle P = [])
    (hok : ok { id := w.next, executor := e, priority := P } = true) :
    (BorrowStream ok e P w).stream = { id := w.next, executor := e, priority := P } ∧
    (ReturnStream ok (BorrowStream ok e P w).stream (BorrowStream ok e P w).world).next
      = w.next + 1 ∧
    (ReturnStream ok (BorrowStream ok e P w).stream (BorrowStream ok e P w).world).freed
      = w.freed ∧
    (ReturnStream ok (BorrowStream ok e P w).stream
        (BorrowStream ok e P w).world).pool.streams_with_pri_ P
      = some [{ id := w.next, executor := e, priority := P }] := by
  rcases BorrowStream_effect ok e P w with ⟨_, hs, _, hn, hf, _, hi⟩ | ⟨pre, h, suf, hP, _⟩
  · rw [hs]
    refine ⟨rfl, ?_, ?_, ?_⟩
    · rw [(ReturnStream_effect_ok ok _ _ hok).1, hn]
    · rw [(ReturnStream_effect_ok ok _ _ hok).2.1, hf, hidle]; simp
    · rw [ReturnStream_ok ok _ _ hok]
      simp [hi P]
  · rw [hidle] at hP
    simp at hP

/-- A cycle on an idle list that holds one healthy stream hands that stream out
and puts it back. -/
theorem cycle_again (ok : Stream Pri → Bool) (e : Nat) (P : Pri) (w : World Pri)
    (x : Stream Pri) (hm : w.pool.streams_with_pri_ P = some [x]) (hok : ok x = true)
    (hx : x.priority = P) :
    (BorrowStream ok e P w).stream = x ∧
    (ReturnStream ok (BorrowStream ok e P w).stream (BorrowStream ok e P w).world).next
      = w.next ∧
    (ReturnStream ok (BorrowStream ok e P w).stream (BorrowStream ok e P w).world).freed
      = w.freed ∧
    (ReturnStream ok (BorrowStream ok e P w).stream
        (BorrowStream ok e P w).world).pool.streams_with_pri_ P = some [x] := by
  have hb := BorrowStream_found ok e P w [] x [] (by simpa using hm) hok (by simp)
  rw [hb]
  subst hx
  refine ⟨rfl, ?_, ?_, ?_⟩
  · rw [(ReturnStream_effect_ok ok _ _ hok).1]
  · rw [(ReturnStream_effect_ok ok _ _ hok).2.1]; simp
  · rw [ReturnStream_ok ok _ _ hok]
    simp [World.idle]

/-- C7. Idempotence of the borrow/return cycle: starting from a pool whose idle
list for `P` is empty or absent, `n ≥ 1` cycles of `BorrowStream(executor, P)`
followed by `ReturnStream` of the stream handed out, the stream staying
healthy, construct exactly one stream, hand out that stream in every cycle,
destroy nothing, and leave the idle list for `P` holding exactly that stream. -/
theorem cycles_reuse_one_stream (oks : Nat → Stream Pri → Bool) (e : Nat) (P : Pri)
    (w : World Pri) (n : Nat) (hidle : w.idle P = [])
    (hok : ∀ k, oks k { id := w.next, executor := e, priority := P } = true)
    (hn : 1 ≤ n) :
    (cycles oks e P w n).next = w.next + 1 ∧
    cycleStreams oks e P w n
      = List.replicate n { id := w.next, executor := e, priority := P } ∧
    (cycles oks e P w n).freed = w.freed ∧
    (cycles oks e P w n).pool.streams_with_pri_ P
      = some [{ id := w.next, executor := e, priority := P }] := by
  obtain ⟨m, rfl⟩ : ∃ m, n = m + 1 := ⟨n - 1, by omega⟩
  clear hn
  induction m with
  | zero =>
    obtain ⟨h1, h2, h3, h4⟩ := cycle_first (oks 0) e P w hidle (hok 0)
    exact ⟨h2, by simp [cycleStreams, cycles, h1], h3, h4⟩
  | succ m ih =>
    obtain ⟨i1, i2, i3, i4⟩ := ih
    obtain ⟨h1, h2, h3, h4⟩ := cycle_again (oks (m + 1)) e P (cycles oks e P w (m + 1))
      { id := w.next, executor := e, priority := P } i4 (hok (m + 1)) rfl
    refine ⟨?_, ?_, ?_, ?_⟩
    · show (ReturnStream _ _ _).next = _
      rw [h2, i1]
    · show cycleStreams oks e P w (m + 1) ++ [_] = _
      rw [i2, h1, List.replicate_succ' (m + 1)]
    · show (ReturnStream _ _ _).freed = _
      rw [h3, i3]
    · exact h4

/-- Instance of C7: three cycles at priority 1, for which `demoWorld` has no
idle list; stream 3 is constructed in the first and reused in the others. -/
theorem cycles_reuse_one_stream_witness :
    demoWorld.idle 1 = [] ∧
    cycleStreams (fun _ _ => true) 9 1 demoWorld 3
      = [{ id := 3, executor := 9, priority := 1 }, { id := 3, executor := 9, priority := 1 },
         { id := 3, executor := 9, priority := 1 }] ∧
    (cycles (fun _ _ => true) 9 1 demoWorld 3).next = 4 :=
  have h := cycles_reuse_one_stream (fun _ (_ : Stream Nat) => true) 9 1 demoWorld 3
    (by decide) (fun _ => rfl) (by decide)
  ⟨by decide, h.2.1, h.1⟩

/-! ## The scan in detail -/

/-- C11. Reuse-scan result: `BorrowStream` pops from the tail and stops at the
first healthy stream.  When the idle list for `P` is `pre ++ [h] ++ suf` with
`h` healthy and every stream of `suf` unhealthy, the call hands out `h`,
constructs nothing, destroys exactly the streams of `suf` (tail first) and
leaves `pre` as the list, unhealthy streams of `pre` included.  When every
stream of the list is unhealthy, the call destroys exactly the streams of the
list (tail first) and leaves the list empty. -/
theorem reuse_scan_result (ok : Stream Pri → Bool) (e : Nat) (P : Pri) (w : World Pri) :
    (∀ pre h suf, w.pool.streams_with_pri_ P = some (pre ++ [h] ++ suf) → ok h = true →
      (∀ s ∈ suf, ok s = false) →
        (BorrowStream ok e P w).stream = h ∧
        (BorrowStream ok e P w).created = false ∧
        (BorrowStream ok e P w).world.next = w.next ∧
        (BorrowStream ok e P w).deleted = suf.reverse ∧
        (BorrowStream ok e P w).world.freed = w.freed ++ suf.reverse ∧
        (BorrowStream ok e P w).world.pool.streams_with_pri_ P = some pre) ∧
    (∀ l, w.pool.streams_with_pri_ P = some l → (∀ s ∈ l, ok s = false) →
        (BorrowStream ok e P w).created = true ∧
        (BorrowStream ok e P w).deleted = l.reverse ∧
        (BorrowStream ok e P w).world.freed = w.freed ++ l.reverse ∧
        (BorrowStream ok e P w).world.pool.streams_with_pri_ P = some []) := by
  constructor
  · intro pre h suf hm hh hbad
    rw [BorrowStream_found ok e P w pre h suf (by simpa using hm) hh hbad]
    simp
  · intro l hm hbad
    rw [BorrowStream_all_bad ok e P w l hm hbad]
    simp

/-- Instance of C11 on `demoWorld`, whose idle list for priority 0 is streams 0
and 1: with stream 1 failed, stream 0 is handed out and stream 1 destroyed;
with both failed, both are destroyed, stream 1 first. -/
theorem reuse_scan_result_witness :
    (BorrowStream (fun t => t.id != 1) 9 0 demoWorld).stream
      = { id := 0, executor := 7, priority := 0 } ∧
    (BorrowStream (fun t => t.id != 1) 9 0 demoWorld).deleted
      = [{ id := 1, executor := 7, priority := 0 }] ∧
    (BorrowStream (fun t => t.id != 1) 9 0 demoWorld).world.pool.streams_with_pri_ 0
      = some [] ∧
    (BorrowStream (fun _ => false) 9 0 demoWorld).deleted
      = [{ id := 1, executor := 7, priority := 0 }, { id := 0, executor := 7, priority := 0 }] :=
  have h1 := (reuse_scan_result (fun t : Stream Nat => t.id != 1) 9 0 demoWorld).1 []
    { id := 0, executor := 7, priority := 0 } [{ id := 1, executor := 7, priority := 0 }]
    (by decide) (by decide) (by decide)
  have h2 := (reuse_scan_result (fun _ : Stream Nat => false) 9 0 demoWorld).2
    [{ id := 0, executor := 7, priority := 0 }, { id := 1, executor := 7, priority := 0 }]
    (by decide) (by decide)
  ⟨h1.1, h1.2.2.2.1, h1.2.2.2.2.2, h2.2.1⟩

/-- C12. A healthy stream is never discarded.  Every stream `BorrowStream`
destroys failed its `ok()` check, and these are all the streams the call adds to
the destroyed ones; `ReturnStream` destroys at most its argument, and only when
the check of the argument failed.  A stream leaves an idle list only by being
destroyed in a scan or by being handed out by `BorrowStream`; `ReturnStream`
removes none. -/
theorem healthy_never_discarded (ok : Stream Pri → Bool) (e : Nat) (P : Pri)
    (t : Stream Pri) (w : World Pri) :
    (∀ s ∈ (BorrowStream ok e P w).deleted, ok s = false) ∧
    (BorrowStream ok e P w).world.freed = w.freed ++ (BorrowStream ok e P w).deleted ∧
    (ReturnStream ok t w).freed = w.freed ++ (if ok t = true then [] else [t]) ∧
    (∀ Q s, s ∈ w.idle Q → s ∉ (BorrowStream ok e P w).world.idle Q →
      Q = P ∧ ((s ∈ (BorrowStream ok e P w).deleted ∧ ok s = false) ∨
        (s = (BorrowStream ok e P w).stream ∧ (BorrowStream ok e P w).created = false ∧
          ok s = true))) ∧
    (∀ Q s, s ∈ w.idle Q → s ∈ (ReturnStream ok t w).idle Q) := by
  refine ⟨?_, ?_, ?_, ?_, ?_⟩
  · intro s hs
    rcases BorrowStream_cases ok e P w with ⟨_, hb⟩ | ⟨l, _, hbad, hb⟩ |
      ⟨pre, h, suf, _, _, hbad, hb⟩
    · rw [hb] at hs; simp at hs
    · rw [hb] at hs; exact hbad s (by simpa using hs)
    · rw [hb] at hs; exact hbad s (by simpa using hs)
  · rcases BorrowStream_cases ok e P w with ⟨_, hb⟩ | ⟨l, _, _, hb⟩ |
      ⟨pre, h, suf, _, _, _, hb⟩ <;> simp [hb]
  · cases hok : ok t with
    | false => rw [(ReturnStream_effect_bad ok t w hok).2.1]; simp
    | true => rw [(ReturnStream_effect_ok ok t w hok).2.1]; simp
  · intro Q s hs hnot
    rcases BorrowStream_effect ok e P w with ⟨hbad, _, _, _, _, _, hi⟩ |
      ⟨pre, h, suf, hP, hh, hbad, hst, hc, _, _, _, hi⟩
    · rw [hi Q] at hnot
      by_cases hQ : Q = P
      · subst hQ
        refine ⟨rfl, Or.inl ⟨?_, hbad s hs⟩⟩
        rcases BorrowStream_cases ok e Q w with ⟨hm, hb⟩ | ⟨l, hm, _, hb⟩ |
          ⟨pre, h, suf, hm, hh, _, hb⟩
        · simp [World.idle, hm] at hs
        · rw [hb]; simpa [World.idle, hm] using hs
        · have := hbad h (by simp [World.idle, hm])
          rw [hh] at this
          exact absurd this (by simp)
      · rw [if_neg hQ] at hnot; exact absurd hs hnot
    · rw [hi Q] at hnot
      by_cases hQ : Q = P
      · subst hQ
        rw [if_pos rfl] at hnot
        rw [hP] at hs
        refine ⟨rfl, ?_⟩
        rcases List.mem_append.1 hs with hs | hs
        · exact absurd hs hnot
        · rcases List.mem_cons.1 hs with hs | hs
          · right; rw [hst, hc, hs]; exact ⟨rfl, rfl, hh⟩
          · left
            refine ⟨?_, hbad s hs⟩
            rw [BorrowStream_found ok e Q w pre h suf
              (by
                cases hm : w.pool.streams_with_pri_ Q with
                | none => simp [World.idle, hm] at hP
                | some l => simp [World.idle, hm] at hP; rw [hP]) hh hbad]
            simpa using hs
      · rw [if_neg hQ] at hnot; exact absurd hs hnot
  · intro Q s hs
    cases hok : ok t with
    | false => rw [(ReturnStream_effect_bad ok t w hok).2.2.2 Q]; exact hs
    | true =>
      rw [(ReturnStream_effect_ok ok t w hok).2.2.2 Q]
      by_cases hQ : Q = t.priority
      · rw [if_pos hQ]; exact List.mem_append_left _ hs
      · rw [if_neg hQ]; exact hs

/-- C13. Independent sub-pools: `BorrowStream(executor, P)` leaves the entry of
every priority other than `P` as it was, inserts no stream into any idle list
(each list is afterwards an initial segment of what it was), and creates no
entry for a priority that had none.  What it destroys, whether it constructs,
its pops and the entry it leaves for `P` are the same in any two states with
the same entry for `P`; so is the stream handed out when it is reused, and also
when it is constructed provided the same number of streams has been constructed
in both states. -/
theorem borrow_other_priorities (ok : Stream Pri → Bool) (e : Nat) (P : Pri)
    (w : World Pri) :
    (∀ Q, Q ≠ P →
      (BorrowStream ok e P w).world.pool.streams_with_pri_ Q = w.pool.streams_with_pri_ Q) ∧
    (∀ Q, ∃ rest, w.idle Q = (BorrowStream ok e P w).world.idle Q ++ rest) ∧
    (∀ Q, w.pool.streams_with_pri_ Q = none →
      (BorrowStream ok e P w).world.pool.streams_with_pri_ Q = none) ∧
    (∀ v : World Pri, v.pool.streams_with_pri_ P = w.pool.streams_with_pri_ P →
      (BorrowStream ok e P v).deleted = (BorrowStream ok e P w).deleted ∧
      (BorrowStream ok e P v).created = (BorrowStream ok e P w).created ∧
      (BorrowStream ok e P v).pops = (BorrowStream ok e P w).pops ∧
      (BorrowStream ok e P v).world.pool.streams_with_pri_ P
        = (BorrowStream ok e P w).world.pool.streams_with_pri_ P ∧
      ((BorrowStream ok e P w).created = false →
        (BorrowStream ok e P v).stream = (BorrowStream ok e P w).stream) ∧
      (v.next = w.next →
        (BorrowStream ok e P v).stream = (BorrowStream ok e P w).stream)) := by
  refine ⟨?_, BorrowStream_idle_shrinks ok e P w, ?_, ?_⟩
  · intro Q hQ
    rcases BorrowStream_cases ok e P w with ⟨_, hb⟩ | ⟨l, _, _, hb⟩ |
      ⟨pre, h, suf, _, _, _, hb⟩ <;> simp [hb, hQ]
  · intro Q hnone
    rcases BorrowStream_cases ok e P w with ⟨_, hb⟩ | ⟨l, hm, _, hb⟩ |
      ⟨pre, h, suf, hm, _, _, hb⟩
    · rw [hb]; exact hnone
    · rw [hb]
      by_cases hQ : Q = P
      · subst hQ; rw [hm] at hnone; exact absurd hnone (by simp)
      · simp [hQ, hnone]
    · rw [hb]
      by_cases hQ : Q = P
      · subst hQ; rw [hm] at hnone; exact absurd hnone (by simp)
      · simp [hQ, hnone]
  · intro v hv
    rcases BorrowStream_cases ok e P w with ⟨hm, hb⟩ | ⟨l, hm, hbad, hb⟩ |
      ⟨pre, h, suf, hm, hh, hbad, hb⟩
    · rw [hb, BorrowStream_absent ok e P v (hv.trans hm)]
      refine ⟨rfl, rfl, rfl, by simp [hv], by simp, ?_⟩
      intro hn; simp [hn]
    · rw [hb, BorrowStream_all_bad ok e P v l (hv.trans hm) hbad]
      refine ⟨rfl, rfl, rfl, by simp, by simp, ?_⟩
      intro hn; simp [hn]
    · rw [hb, BorrowStream_found ok e P v pre h suf (hv.trans hm) hh hbad]
      exact ⟨rfl, rfl, rfl, by simp, fun _ => rfl, fun _ => rfl⟩

/-! ## Stack order -/

/-- The state after two sequences of calls made one after the other. -/
theorem run_append (a b : List (Call Pri)) :
    ∀ w : World Pri, run w (a ++ b) = run (run w a) b := by
  induction a with
  | nil => intro w; rfl
  | cons c cs ih => intro w; exact ih (step w c)

/-- The streams handed out by two sequences of calls made one after the other. -/
theorem handedOut_append (a b : List (Call Pri)) :
    ∀ w : World Pri, handedOut w (a ++ b) = handedOut w a ++ handedOut (run w a) b := by
  induction a with
  | nil => intro w; rfl
  | cons c cs ih =>
    intro w
    cases c with
    | borrow ok e P =>
      show _ :: handedOut _ (cs ++ b) = _ :: handedOut _ cs ++ _
      rw [ih]; rfl
    | giveBack ok t =>
      show handedOut _ (cs ++ b) = handedOut _ cs ++ _
      rw [ih]; rfl

/-- Returning healthy streams of priority `P` one after the other appends them
to the idle list for `P` in the order of the returns. -/
theorem returns_effect (P : Pri) (rs : List ((Stream Pri → Bool) × Stream Pri)) :
    ∀ w : World Pri, (∀ r ∈ rs, r.1 r.2 = true ∧ r.2.priority = P) →
      handedOut w (rs.map fun r => Call.giveBack r.1 r.2) = [] ∧
      (run w (rs.map fun r => Call.giveBack r.1 r.2)).next = w.next ∧
      (run w (rs.map fun r => Call.giveBack r.1 r.2)).freed = w.freed ∧
      (rs ≠ [] → (run w (rs.map fun r => Call.giveBack r.1 r.2)).pool.streams_with_pri_ P
        = some (w.idle P ++ rs.map Prod.snd)) ∧
      (∀ Q, Q ≠ P → (run w (rs.map fun r => Call.giveBack r.1 r.2)).pool.streams_with_pri_ Q
        = w.pool.streams_with_pri_ Q) := by
  induction rs with
  | nil => intro w _; simp [run, handedOut]
  | cons r rs ih =>
    intro w hr
    obtain ⟨hok, hpri⟩ := hr r (by simp)
    obtain ⟨i1, i2, i3, i4, i5⟩ := ih (ReturnStream r.1 r.2 w)
      (fun x hx => hr x (by simp [hx]))
    have hw := ReturnStream_ok r.1 r.2 w hok
    have hP : (ReturnStream r.1 r.2 w).pool.streams_with_pri_ P
        = some (w.idle P ++ [r.2]) := by rw [hw]; simp [hpri]
    refine ⟨i1, ?_, ?_, ?_, ?_⟩
    · show (run (ReturnStream r.1 r.2 w) _).next = _
      rw [i2, hw]
    · show (run (ReturnStream r.1 r.2 w) _).freed = _
      rw [i3, hw]
    · intro _
      show (run (ReturnStream r.1 r.2 w) _).pool.streams_with_pri_ P = _
      by_cases hrs : rs = []
      · subst hrs
        simpa [run] using hP
      · rw [i4 hrs]
        simp [World.idle, hP]
    · intro Q hQ
      show (run (ReturnStream r.1 r.2 w) _).pool.streams_with_pri_ Q = _
      rw [i5 Q hQ, hw]
      simp [hQ, hpri]

/-- Borrowing as many times as there are healthy streams on top of the idle
list for `P` hands them out from the tail and takes nothing else. -/
theorem borrows_effect (e : Nat) (P : Pri) (bs : List (Stream Pri → Bool)) :
    ∀ (ss base : List (Stream Pri)) (w : World Pri),
      w.pool.streams_with_pri_ P = some (base ++ ss) →
      (∀ ok ∈ bs, ∀ s ∈ ss, ok s = true) → bs.length = ss.length →
      handedOut w (bs.map fun ok => Call.borrow ok e P) = ss.reverse ∧
      (run w (bs.map fun ok => Call.borrow ok e P)).next = w.next ∧
      (run w (bs.map fun ok => Call.borrow ok e P)).freed = w.freed ∧
      (run w (bs.map fun ok => Call.borrow ok e P)).pool.streams_with_pri_ P = some base ∧
      (∀ Q, Q ≠ P → (run w (bs.map fun ok => Call.borrow ok e P)).pool.streams_with_pri_ Q
        = w.pool.streams_with_pri_ Q) := by
  induction bs with
  | nil =>
    intro ss base w hm _ hlen
    have : ss = [] := List.length_eq_zero.1 hlen.symm
    subst this
    simpa [run, handedOut] using hm
  | cons ok bs ih =>
    intro ss base w hm hB hlen
    rcases List.eq_nil_or_concat ss with rfl | ⟨ss, s, rfl⟩
    · simp at hlen
    · have hs : ok s = true := hB ok (by simp) s (by simp)
      have hb := BorrowStream_found ok e P w (base ++ ss) s [] (by simpa using hm) hs (by simp)
      obtain ⟨i1, i2, i3, i4, i5⟩ := ih ss base (BorrowStream ok e P w).world
        (by rw [hb]; simp)
        (fun o ho t ht => hB o (by simp [ho]) t (by simp [ht]))
        (by simp at hlen; exact hlen)
      refine ⟨?_, ?_, ?_, i4, ?_⟩
      · show (BorrowStream ok e P w).stream :: handedOut (BorrowStream ok e P w).world _ = _
        rw [i1, hb]; simp
      · show (run (BorrowStream ok e P w).world _).next = _
        rw [i2, hb]
      · show (run (BorrowStream ok e P w).world _).freed = _
        rw [i3, hb]; simp
      · intro Q hQ
        show (run (BorrowStream ok e P w).world _).pool.streams_with_pri_ Q = _
        rw [i5 Q hQ, hb]; simp [hQ]

/-- C14. Stack order: when streams `s1, ..., sn` of priority `P`, each healthy
at its return, are returned in this order and `BorrowStream(executor, P)` is
then called `n` times with all of them still healthy, the calls hand them out in
the order `sn, ..., s1`, construct and destroy nothing, and leave every idle
list, the one for `P` included, as it was before the first return. -/
theorem stack_order (rs : List ((Stream Pri → Bool) × Stream Pri))
    (bs : List (Stream Pri → Bool)) (e : Nat) (P : Pri) (w : World Pri)
    (hR : ∀ r ∈ rs, r.1 r.2 = true ∧ r.2.priority = P)
    (hB : ∀ ok ∈ bs, ∀ r ∈ rs, ok r.2 = true) (hlen : bs.length = rs.length) :
    handedOut w ((rs.map fun r => Call.giveBack r.1 r.2) ++
        bs.map fun ok => Call.borrow ok e P) = (rs.map Prod.snd).reverse ∧
    (run w ((rs.map fun r => Call.giveBack r.1 r.2) ++
        bs.map fun ok => Call.borrow ok e P)).next = w.next ∧
    (run w ((rs.map fun r => Call.giveBack r.1 r.2) ++
        bs.map fun ok => Call.borrow ok e P)).freed = w.freed ∧
    (∀ Q, (run w ((rs.map fun r => Call.giveBack r.1 r.2) ++
        bs.map fun ok => Call.borrow ok e P)).idle Q = w.idle Q) ∧
    (rs ≠ [] → (run w ((rs.map fun r => Call.giveBack r.1 r.2) ++
        bs.map fun ok => Call.borrow ok e P)).pool.streams_with_pri_ P = some (w.idle P)) := by
  obtain ⟨r1, r2, r3, r4, r5⟩ := returns_effect P rs w hR
  rw [handedOut_append, run_append, r1]
  by_cases hrs : rs = []
  · subst hrs
    have : bs = [] := List.length_eq_zero.1 (by simpa using hlen)
    subst this
    simp [run, handedOut]
  · obtain ⟨b1, b2, b3, b4, b5⟩ := borrows_effect e P bs (rs.map Prod.snd) (w.idle P)
      (run w (rs.map fun r => Call.giveBack r.1 r.2)) (r4 hrs)
      (by
        intro ok hok s hs
        obtain ⟨r, hr, rfl⟩ := List.mem_map.1 hs
        exact hB ok hok r hr)
      (by simpa using hlen)
    refine ⟨by simpa using b1, by rw [b2, r2], by rw [b3, r3], ?_, fun _ => b4⟩
    intro Q
    by_cases hQ : Q = P
    · subst hQ
      simp [World.idle, b4]
    · simp only [World.idle]
      rw [b5 Q hQ, r5 Q hQ]

/-- Instance of C14: streams 5 and 6 of priority 0 are returned to `demoWorld`
and two borrows follow; stream 6 comes out first, then stream 5. -/
theorem stack_order_witness :
    handedOut demoWorld
      [ Call.giveBack (fun _ => true) { id := 5, executor := 7, priority := 0 },
        Call.giveBack (fun _ => true) { id := 6, executor := 7, priority := 0 },
        Call.borrow (fun _ => true) 9 0, Call.borrow (fun _ => true) 9 0 ]
      = [{ id := 6, executor := 7, priority := 0 }, { id := 5, executor := 7, priority := 0 }] ∧
    (run demoWorld
      [ Call.giveBack (fun _ => true) { id := 5, executor := 7, priority := 0 },
        Call.giveBack (fun _ => true) { id := 6, executor := 7, priority := 0 },
        Call.borrow (fun _ => true) 9 0, Call.borrow (fun _ => true) 9 0 ]).idle 0
      = demoWorld.idle 0 :=
  have h := stack_order
    [ ((fun _ => true), ({ id := 5, executor := 7, priority := 0 } : Stream Nat)),
      ((fun _ => true), { id := 6, executor := 7, priority := 0 }) ]
    [fun _ => true, fun _ => true] 9 0 demoWorld
    (by intro r hr; simp at hr; rcases hr with rfl | rfl <;> exact ⟨rfl, rfl⟩)
    (by intro ok hok r _; simp at hok; subst hok; rfl)
    rfl
  ⟨h.1, h.2.2.2.1 0⟩

/-! ## Termination of the scan and the round trip -/

/-- C15. The scan terminates and `BorrowStream` always yields a stream.  With the
length of the idle list as fuel the loop has reached a state in which its
condition is false, and more fuel gives the same state.  The call pops at most
as many streams as the list holds, checks `ok()` once per pop, and pops exactly
the unhealthy streams at the tail followed, if the list holds a healthy stream,
by the last healthy one: the list was what is left of it, then the stream
handed out if it was reused, then the destroyed streams.  In every case a
stream is handed out: a reused one, or the one constructed on the spot. -/
theorem scan_terminates (ok : Stream Pri → Bool) (e : Nat) (P : Pri) (w : World Pri) :
    scanCond (scan ok (w.pool.streams_with_pri_ P)) = false ∧
    (∀ l n, w.pool.streams_with_pri_ P = some l → l.length ≤ n →
      scanLoop ok n { vec := l, stream := none, deleted := [], pops := 0, checks := 0 }
        = scan ok (w.pool.streams_with_pri_ P)) ∧
    (BorrowStream ok e P w).pops ≤ (w.idle P).length ∧
    (BorrowStream ok e P w).checks = (BorrowStream ok e P w).pops ∧
    (BorrowStream ok e P w).pops
      = (trailingBad ok (w.idle P)).length + (if (w.idle P).any ok = true then 1 else 0) ∧
    (BorrowStream ok e P w).deleted = trailingBad ok (w.idle P) ∧
    w.idle P = (BorrowStream ok e P w).world.idle P ++
      (if (BorrowStream ok e P w).created = true then [] else [(BorrowStream ok e P w).stream]) ++
      (BorrowStream ok e P w).deleted.reverse ∧
    (((BorrowStream ok e P w).created = false ∧ (BorrowStream ok e P w).stream ∈ w.idle P) ∨
      ((BorrowStream ok e P w).created = true ∧
        (BorrowStream ok e P w).stream = { id := w.next, executor := e, priority := P })) := by
  refine ⟨scan_exits ok _, ?_, ?_⟩
  · intro l n hm hn
    rw [hm]
    exact scanLoop_enough_fuel ok l n hn
  · rcases BorrowStream_cases ok e P w with ⟨hm, hb⟩ | ⟨l, hm, hbad, hb⟩ |
      ⟨pre, h, suf, hm, hh, hbad, hb⟩
    · have hi : w.idle P = [] := by simp [World.idle, hm]
      rw [hb, hi]
      simp [trailingBad, World.idle, hm]
    · have hi : w.idle P = l := by simp [World.idle, hm]
      obtain ⟨t1, _, t3⟩ := trailingBad_all_bad ok l hbad
      rw [hb, hi, t1, t3]
      simp [World.idle]
    · have hi : w.idle P = pre ++ h :: suf := by simp [World.idle, hm]
      obtain ⟨t1, _⟩ := trailingBad_found ok pre h suf hh hbad
      have hany : (pre ++ h :: suf).any ok = true := by
        simp only [List.any_eq_true]
        exact ⟨h, by simp, hh⟩
      rw [hb, hi, t1, hany]
      simp [World.idle]

/-- C16. Borrow-then-return round trip: when `BorrowStream(executor, P)` reuses
an idle stream and `ReturnStream` of that stream follows with the stream still
healthy and of priority `P`, the idle list for `P` is the original list without
the unhealthy streams at its tail, the other entries are untouched, nothing is
constructed, and exactly those tail streams are destroyed.  When the last stream
of the original list is healthy, pool, heap and (for a stream that no handle
held before) handles are all as they were. -/
theorem borrow_then_return (okB okR : Stream Pri → Bool) (e : Nat) (P : Pri) (w : World Pri)
    (hc : (BorrowStream okB e P w).created = false)
    (hR : okR (BorrowStream okB e P w).stream = true)
    (hP : (BorrowStream okB e P w).stream.priority = P) :
    (ReturnStream okR (BorrowStream okB e P w).stream
        (BorrowStream okB e P w).world).pool.streams_with_pri_ P
      = some (withoutTrailingBad okB (w.idle P)) ∧
    (∀ Q, Q ≠ P →
      (ReturnStream okR (BorrowStream okB e P w).stream
          (BorrowStream okB e P w).world).pool.streams_with_pri_ Q
        = w.pool.streams_with_pri_ Q) ∧
    (ReturnStream okR (BorrowStream okB e P w).stream (BorrowStream okB e P w).world).next
      = w.next ∧
    (ReturnStream okR (BorrowStream okB e P w).stream (BorrowStream okB e P w).world).freed
      = w.freed ++ trailingBad okB (w.idle P) ∧
    (∀ pre h, w.pool.streams_with_pri_ P = some (pre ++ [h]) → okB h = true →
      (BorrowStream okB e P w).stream = h ∧
      (ReturnStream okR (BorrowStream okB e P w).stream (BorrowStream okB e P w).world).pool
        = w.pool ∧
      (ReturnStream okR (BorrowStream okB e P w).stream (BorrowStream okB e P w).world).freed
        = w.freed ∧
      (h ∉ w.borrowed →
        (ReturnStream okR (BorrowStream okB e P w).stream
            (BorrowStream okB e P w).world).borrowed = w.borrowed)) := by
  rcases BorrowStream_cases okB e P w with ⟨hm, hb⟩ | ⟨l, hm, hbad, hb⟩ |
    ⟨pre, h, suf, hm, hh, hbad, hb⟩
  · rw [hb] at hc; simp at hc
  · rw [hb] at hc; simp at hc
  · have hi : w.idle P = pre ++ h :: suf := by simp [World.idle, hm]
    obtain ⟨t1, t2⟩ := trailingBad_found okB pre h suf hh hbad
    rw [hb] at hR hP ⊢
    simp only at hR hP
    rw [ReturnStream_ok okR h _ hR, hi, t1, t2]
    refine ⟨by simp [World.idle, hP], ?_, rfl, rfl, ?_⟩
    · intro Q hQ
      simp [hP, hQ]
    · intro pre2 h2 hm2 hh2
      rw [hm] at hm2
      have hsplit : pre ++ h :: suf = pre2 ++ [h2] := by simpa using hm2
      have hsuf : suf = [] := by
        rcases List.eq_nil_or_concat suf with hnil | ⟨suf2, x, hx⟩
        · exact hnil
        · exfalso
          rw [hx, List.concat_eq_append, ← List.cons_append, ← List.append_assoc] at hsplit
          have hx2 : x = h2 := by
            have := List.append_inj_right' hsplit rfl
            simpa using this
          have hxbad := hbad x (by rw [hx]; simp)
          rw [hx2, hh2] at hxbad
          exact absurd hxbad (by simp)
      subst hsuf
      have hpre : pre = pre2 ∧ h = h2 := by
        have h1 := List.append_inj_left' hsplit rfl
        have h2' := List.append_inj_right' hsplit rfl
        exact ⟨h1, by simpa using h2'⟩
      obtain ⟨rfl, rfl⟩ := hpre
      refine ⟨rfl, ?_, by simp, ?_⟩
      · have hfun : (fun q => if q = h.priority then
            some (World.idle
              { pool := { streams_with_pri_ := fun q =>
                            if q = P then some pre else w.pool.streams_with_pri_ q },
                next := w.next, freed := w.freed ++ ([] : List (Stream Pri)).reverse,
                borrowed := w.borrowed ++ [h] } q ++ [h])
            else (if q = P then some pre else w.pool.streams_with_pri_ q))
            = w.pool.streams_with_pri_ := by
          funext q
          by_cases hq : q = P
          · subst hq; simp [World.idle, hP, hm]
          · simp [hP, hq]
        show StreamPool.mk _ = w.pool
        rw [hfun]
      · intro hnot
        show (w.borrowed ++ [h]).erase h = w.borrowed
        rw [List.erase_append_right _ hnot]
        simp

/-- Instance of C16 on `demoWorld` with stream 1 failed in the idle list: stream
0 is handed out and returned, and the idle list for priority 0 is left holding
stream 0 alone. -/
theorem borrow_then_return_witness :
    (BorrowStream (fun t => t.id != 1) 9 0 demoWorld).created = false ∧
    (ReturnStream (fun t => t.id != 1) (BorrowStream (fun t => t.id != 1) 9 0 demoWorld).stream
        (BorrowStream (fun t => t.id != 1) 9 0 demoWorld).world).pool.streams_with_pri_ 0
      = some [{ id := 0, executor := 7, priority := 0 }] ∧
    withoutTrailingBad (fun t => t.id != 1) (demoWorld.idle 0)
      = [{ id := 0, executor := 7, priority := 0 }] :=
  have h := borrow_then_return (fun t : Stream Nat => t.id != 1) (fun t => t.id != 1) 9 0
    demoWorld (by decide) (by decide) (by decide)
  ⟨by decide, h.1.trans (by decide), by decide⟩

end xla
